import Mathlib

/-!
A shallow embedding of the `combine` Go package (combine.go): a tag-driven
batch aggregation engine.  Records are structs whose fields carry a
`combine:"funcName,outputTarget"` tag; `Process` scans a batch, groups the
current values of tagged fields by function name, invokes each registered
aggregate handler once per batch with the collected values and the engine
context, and writes each handler's per-entry result back into the record
(into a field, or through an output method for `fn:`-prefixed targets).

Go map iteration order is unspecified, so the order in which the per-function
tasks of one `Process` call are executed is modelled by an explicit `order`
parameter (a permutation of the task indices).  Machine values are modelled
by the inductive `Val` (ints and strings suffice for every property below);
the mutable record state is the `fields` list of each batch `Item`, threaded
explicitly.  Errors are `Option String` alongside the final state, matching
the in-place mutation of the Go code (writes performed before a failure
persist).
-/

namespace CombineGo

/-- Field types of the modelled value universe (Go `int` and `string`). -/
inductive Ty where
  | tInt : Ty
  | tStr : Ty
deriving DecidableEq

/-- Dynamic (`any`-typed) values flowing through the engine. -/
inductive Val where
  | vInt : Int → Val
  | vStr : String → Val
deriving DecidableEq

/-- Dynamic type of a value, as `reflect.Type` sees it. -/
def typeOf : Val → Ty
  | .vInt _ => .tInt
  | .vStr _ => .tStr

/-- Zero value of a type, as `reflect.Zero` produces it. -/
def zeroOf : Ty → Val
  | .tInt => .vInt 0
  | .tStr => .vStr ""

/-- Go conversion `string(rune(n))`: the code point if valid, U+FFFD otherwise. -/
def goIntToString (n : Int) : String :=
  if (0 ≤ n ∧ n < 0xD800) ∨ (0xE000 ≤ n ∧ n ≤ 0x10FFFF) then
    String.mk [Char.ofNat n.toNat]
  else
    "�"

/-- Go assignability plus convertibility between the modelled types:
identical types are assignable; `int` converts to `string` via the rune
conversion; nothing else converts. -/
def convert (v : Val) (t : Ty) : Option Val :=
  match v, t with
  | .vInt n, .tInt => some (.vInt n)
  | .vStr s, .tStr => some (.vStr s)
  | .vInt n, .tStr => some (.vStr (goIntToString n))
  | .vStr _, .tInt => none

/-- Parsed form of a `combine` struct tag: `"funcName,outputTarget"`. -/
structure tagSpec where
  funcName : String
  outputTarget : String
deriving DecidableEq

instance : Inhabited tagSpec := ⟨⟨"", ""⟩⟩

/-- Whitespace recognizer of `strings.TrimSpace`, restricted to the ASCII
whitespace characters that can occur in a struct tag. -/
def isSpaceChar (ch : Char) : Bool :=
  ch = ' ' || ch = '\t' || ch = '\n' || ch = '\r'

/-- Split a character list on a separator character, with the semantics of
`strings.Split`: splitting the empty string yields one empty segment. -/
def splitOnChar (sep : Char) : List Char → List (List Char)
  | [] => [[]]
  | ch :: cs =>
    if ch = sep then [] :: splitOnChar sep cs
    else
      match splitOnChar sep cs with
      | [] => [[ch]]
      | seg :: rest => (ch :: seg) :: rest

/-- Remove leading and trailing whitespace of a character list. -/
def trimChars (cs : List Char) : List Char :=
  ((cs.dropWhile isSpaceChar).reverse.dropWhile isSpaceChar).reverse

/-- Embeds `strings.TrimSpace`. -/
def goTrim (s : String) : String := String.mk (trimChars s.toList)

/-- Embeds `strings.Split(s, ",")`. -/
def goSplit (s : String) : List String := (splitOnChar ',' s.toList).map String.mk

/-- Embeds `strings.HasPrefix`. -/
def goStartsWith (s pre : String) : Bool := pre.toList.isPrefixOf s.toList

/-- Embeds `parseTag`: split the raw tag on commas, trim the first segment as
the function name and the second (when present) as the output target; fail on
an empty tag or an empty trimmed function name. -/
def parseTag (tag : String) : Option tagSpec :=
  if tag = "" then none
  else
    match goSplit tag with
    | [] => none
    | p0 :: rest =>
      let fn := goTrim p0
      let out := match rest with
        | [] => ""
        | p1 :: _ => goTrim p1
      if fn = "" then none else some ⟨fn, out⟩

/-- Component-level context `map[string]any`, read-only during a run. -/
abbrev Ctx := List (String × Val)

/-- Handler result `map[any]any`; values may be `nil` (`none`). -/
abbrev ResultMap := List (Val × Option Val)

/-- An aggregate handler: `Handle(values, combineCtx)` returning a result map. -/
abbrev AggregateHandler := List Val → Ctx → ResultMap

/-- The component root: execution mode, context and handler registry. -/
structure Combine where
  concurrent : Bool
  combineCtx : Ctx
  aggregateHandlers : List (String × AggregateHandler)

/-- Registry lookup `c.aggregateHandlers[name]`. -/
def lookupHandler (c : Combine) (name : String) : Option AggregateHandler :=
  c.aggregateHandlers.lookup name

/-- Static description of one struct field: name, `combine` tag, type. -/
structure FieldDecl where
  name : String
  tag : String
  ty : Ty
deriving DecidableEq

instance : Inhabited FieldDecl := ⟨⟨"", "", .tInt⟩⟩

/-- An output method on a record type: single parameter, mutates the fields. -/
structure Method where
  name : String
  argTy : Ty
  body : List Val → Val → List Val

/-- A record (struct) type: declared fields plus pointer-receiver methods. -/
structure RecordTy where
  fields : List FieldDecl
  methods : List Method

instance : Inhabited RecordTy := ⟨⟨[], []⟩⟩

/-- One batch element: whether it was passed as a pointer, its struct type,
and the current field values (the mutable state). -/
structure Item where
  isPtr : Bool
  ty : RecordTy
  fields : List Val

instance : Inhabited Item := ⟨⟨false, default, []⟩⟩

/-- The input batch `items []any`. -/
abbrev Batch := List Item

/-- Observable state of a batch: the field values of every record. -/
def fieldsOf (b : Batch) : List (List Val) := b.map Item.fields

/-- Indexing helper with the canonical default item. -/
def getItemD (b : Batch) (i : Nat) : Item := b.getD i default

/-- Replace the field values of item `i`, keeping its static parts. -/
def setItemFields : Batch → Nat → List Val → Batch
  | [], _, _ => []
  | it :: rest, 0, f => { it with fields := f } :: rest
  | it :: rest, Nat.succ n, f => it :: setItemFields rest n f

/-- Embeds `fieldRef`: one collected tagged-field occurrence. -/
structure FieldRef where
  itemIdx : Nat
  fieldIdx : Nat
  fieldVal : Val
  output : String
deriving DecidableEq

/-- The `aggregates` accumulator, `funcName -> ordered fieldRefs`, kept as an
association list in first-encounter order. -/
abbrev Aggs := List (String × List FieldRef)

/-- Embeds `aggregates[name] = append(aggregates[name], ref)`. -/
def insertRef : Aggs → String → FieldRef → Aggs
  | [], name, r => [(name, [r])]
  | (n, rs) :: rest, name, r =>
    if n = name then (n, rs ++ [r]) :: rest
    else (n, rs) :: insertRef rest name r

/-- Discovery step for a single field: parse its tag; skip silently when the
tag does not parse; record a `FieldRef` when the function is registered, and
fail the whole call otherwise. -/
def collectField (c : Combine) (i fi : Nat) (fd : FieldDecl) (fields : List Val)
    (aggs : Aggs) : Except String Aggs :=
  match parseTag fd.tag with
  | none => .ok aggs
  | some spec =>
    let value := fields.getD fi (zeroOf fd.ty)
    match lookupHandler c spec.funcName with
    | some _ => .ok (insertRef aggs spec.funcName ⟨i, fi, value, spec.outputTarget⟩)
    | none => .error ("handler " ++ spec.funcName ++ " not registered")

/-- Discovery over the declared fields of one record, in declaration order. -/
def collectFields (c : Combine) (i : Nat) (flds : List Val) :
    List FieldDecl → Nat → Aggs → Except String Aggs
  | [], _, aggs => .ok aggs
  | fd :: rest, fi, aggs =>
    match collectField c i fi fd flds aggs with
    | .error e => .error e
    | .ok aggs' => collectFields c i flds rest (fi + 1) aggs'

/-- Discovery over the whole batch, in batch order. -/
def collectItems (c : Combine) : Batch → Nat → Aggs → Except String Aggs
  | [], _, aggs => .ok aggs
  | it :: rest, i, aggs =>
    match collectFields c i it.fields it.ty.fields 0 aggs with
    | .error e => .error e
    | .ok aggs' => collectItems c rest (i + 1) aggs'

/-- Embeds the first pass of `Process` (lines 127-173). -/
def collect (c : Combine) (b : Batch) : Except String Aggs :=
  collectItems c b 0 []

/-- Embeds `aggTask`: one per-function batch of refs plus extracted values. -/
structure AggTask where
  name : String
  refs : List FieldRef
  values : List Val
deriving DecidableEq

/-- Embeds the task-building loop (lines 182-189): each discovered function
name becomes one task whose value list is the ordered field values. -/
def buildTasks (aggs : Aggs) : List AggTask :=
  aggs.map (fun p => ⟨p.1, p.2, p.2.map FieldRef.fieldVal⟩)

/-- Go map iteration over the tasks: indices are drawn in the unspecified
order given by `order`. -/
def orderTasks (order : List Nat) (ts : List AggTask) : List AggTask :=
  order.filterMap (fun i => ts[i]?)

/-- Lookup in a handler result map by `any`-typed key. -/
def lookupRM (m : ResultMap) (k : Val) : Option (Option Val) :=
  (m.find? (fun p => p.1 == k)).map Prod.snd

/-- Embeds the result resolution of `runTask` (lines 204-215): try the
positional index as key, then the entry's original field value; otherwise the
absence value `nil`. -/
def resolveOut (result : ResultMap) (idx : Nat) (fieldVal : Val) : Option Val :=
  match lookupRM result (.vInt (Int.ofNat idx)) with
  | some o => o
  | none =>
    match lookupRM result fieldVal with
    | some o => o
    | none => none

/-- Position of a declared field by name (`reflect.Value.FieldByName`). -/
def findFieldIdx (rt : RecordTy) (name : String) : Option Nat :=
  rt.fields.findIdx? (fun fd => fd.name == name)

/-- Embeds `refNameByIndex`: the declared name of field `idx`. -/
def refNameByIndex (it : Item) (idx : Nat) : String :=
  (it.ty.fields.getD idx default).name

/-- Embeds `setField`: locate the target field by name; fail when it is
missing or not settable (the record was passed by value); write the zero
value for `nil`, the value itself when assignable, the converted value when
convertible, and fail otherwise. -/
def setField (isPtr : Bool) (rt : RecordTy) (fields : List Val) (fieldName : String)
    (value : Option Val) : Except String (List Val) :=
  match findFieldIdx rt fieldName with
  | none => .error ("cannot set field " ++ fieldName)
  | some fi =>
    if !isPtr then .error ("cannot set field " ++ fieldName)
    else
      let fty := (rt.fields.getD fi default).ty
      match value with
      | none => .ok (fields.set fi (zeroOf fty))
      | some v =>
        if typeOf v = fty then .ok (fields.set fi v)
        else
          match convert v fty with
          | some v' => .ok (fields.set fi v')
          | none => .error ("cannot assign to field " ++ fieldName)

/-- Method lookup by name on the record type. -/
def findMethod (rt : RecordTy) (name : String) : Option Method :=
  rt.methods.find? (fun m => m.name == name)

/-- Embeds `callOutputFunc`: requires an addressable receiver (a pointer
element), a method of the given name, and an argument adaptable to its
parameter type; `nil` becomes the parameter's zero value. -/
def callOutputFunc (isPtr : Bool) (rt : RecordTy) (fields : List Val) (method : String)
    (arg : Option Val) : Except String (List Val) :=
  if !isPtr then .error "output function requires addressable receiver"
  else
    match findMethod rt method with
    | none => .error ("method " ++ method ++ " not found")
    | some m =>
      match arg with
      | none => .ok (m.body fields (zeroOf m.argTy))
      | some v =>
        if typeOf v = m.argTy then .ok (m.body fields v)
        else
          match convert v m.argTy with
          | some v' => .ok (m.body fields v')
          | none => .error ("argument type not assignable for method " ++ method)

/-- Write-back for one task entry (the loop body of lines 204-234): resolve
the result value, then either assign the target field (the entry's own field
name when the target is empty) or invoke the `fn:`-named output method. -/
def bindRef (st : Batch) (idx : Nat) (r : FieldRef) (result : ResultMap) :
    Except String Batch :=
  let out := resolveOut result idx r.fieldVal
  let it := getItemD st r.itemIdx
  if r.output = "" || !(goStartsWith r.output "fn:") then
    let targetName := if r.output = "" then refNameByIndex it r.fieldIdx else r.output
    match setField it.isPtr it.ty it.fields targetName out with
    | .error e => .error e
    | .ok f' => .ok (setItemFields st r.itemIdx f')
  else
    let method := r.output.drop 3
    match callOutputFunc it.isPtr it.ty it.fields method out with
    | .error e => .error e
    | .ok f' => .ok (setItemFields st r.itemIdx f')

/-- Write-back over a task's entries in order; the first failure stops the
task, keeping the writes already made. -/
def bindRefs (st : Batch) : List FieldRef → Nat → ResultMap → Batch × Option String
  | [], _, _ => (st, none)
  | r :: rest, idx, result =>
    match bindRef st idx r result with
    | .error e => (st, some e)
    | .ok st' => bindRefs st' rest (idx + 1) result

/-- One handler invocation, recorded in the trace. -/
abbrev Inv := String × List Val × Ctx

/-- Embeds `runTask` (lines 191-236): look the handler up again, invoke it
once with the task's values and the context, then write the results back. -/
def runTask (c : Combine) (st : Batch) (t : AggTask) :
    Batch × Option String × Option Inv :=
  match lookupHandler c t.name with
  | none => (st, some ("aggregate handler " ++ t.name ++ " not found"), none)
  | some h =>
    let result := h t.values c.combineCtx
    let p := bindRefs st t.refs 0 result
    (p.1, p.2, some (t.name, t.values, c.combineCtx))

/-- Sequential dispatch (lines 256-261): the first task error aborts the
loop and is returned; later tasks are skipped. -/
def seqRun (c : Combine) : List AggTask → Batch → Batch × Option String × List Inv
  | [], st => (st, none, [])
  | t :: rest, st =>
    let p := runTask c st t
    match p.2.1 with
    | some e => (p.1, some e, p.2.2.toList)
    | none =>
      let q := seqRun c rest p.1
      (q.1, q.2.1, p.2.2.toList ++ q.2.2)

/-- Concurrent dispatch (lines 238-253) at task granularity: every task runs
to completion; the first error observed (in completion order) is kept, the
others are dropped. -/
def concRun (c : Combine) : List AggTask → Batch → Batch × Option String × List Inv
  | [], st => (st, none, [])
  | t :: rest, st =>
    let p := runTask c st t
    let q := concRun c rest p.1
    (q.1, (match p.2.1 with | some e0 => some e0 | none => q.2.1), p.2.2.toList ++ q.2.2)

/-- Result of one `Process` call: final batch state, error, and the trace of
handler invocations in execution order. -/
structure ProcResult where
  state : Batch
  err : Option String
  trace : List Inv

/-- Embeds `Process` (lines 110-262), with `order` standing for the
unspecified Go map iteration order over the discovered function names:
return immediately on an empty batch; run discovery, aborting with its error
before any dispatch; then dispatch the ordered tasks sequentially or
concurrently. -/
def processT (c : Combine) (order : List Nat) (b : Batch) : ProcResult :=
  if b.length = 0 then ⟨b, none, []⟩
  else
    match collect c b with
    | .error e => ⟨b, some e, []⟩
    | .ok aggs =>
      let tasks := orderTasks order (buildTasks aggs)
      if c.concurrent then
        let q := concRun c tasks b
        ⟨q.1, q.2.1, q.2.2⟩
      else
        let q := seqRun c tasks b
        ⟨q.1, q.2.1, q.2.2⟩

/-- Number of per-function tasks a batch discovers. -/
def numTasks (c : Combine) (b : Batch) : Nat :=
  match collect c b with
  | .ok aggs => aggs.length
  | .error _ => 0

/-- An `order` parameter is a faithful model of one Go map iteration exactly
when it enumerates each task index once. -/
def validOrder (c : Combine) (b : Batch) (order : List Nat) : Prop :=
  order.Perm (List.range (numTasks c b))

/-- Parsed directives of a field-declaration list, in declaration order:
field position, current field value, parsed tag. -/
def fieldDirectives (flds : List Val) : List FieldDecl → Nat → List (Nat × Val × tagSpec)
  | [], _ => []
  | fd :: rest, fi =>
    match parseTag fd.tag with
    | some sp => (fi, flds.getD fi (zeroOf fd.ty), sp) :: fieldDirectives flds rest (fi + 1)
    | none => fieldDirectives flds rest (fi + 1)

/-- Parsed directives of one record in field-declaration order. -/
def itemDirectives (it : Item) : List (Nat × Val × tagSpec) :=
  fieldDirectives it.fields it.ty.fields 0

/-- Parsed directives of the whole batch in scan order (batch-major,
field-minor). -/
def scanDirectives (b : Batch) : List (Nat × Val × tagSpec) :=
  (b.map itemDirectives).flatten

/-- Name of the first scanned directive whose function has no registered
handler. -/
def firstUnregistered (c : Combine) (b : Batch) : Option String :=
  ((scanDirectives b).find? (fun d => (lookupHandler c d.2.2.funcName).isNone)).map
    (fun d => d.2.2.funcName)

/-- The `FieldRef` the collector records for directive `d` of item `i`. -/
def refFromItem (i : Nat) (d : Nat × Val × tagSpec) : FieldRef :=
  ⟨i, d.1, d.2.1, d.2.2.outputTarget⟩

/-- References a task for `name` should contain, per item in batch order. -/
def refsFromItems (name : String) : Batch → Nat → List FieldRef
  | [], _ => []
  | it :: rest, i =>
    ((itemDirectives it).filterMap (fun d =>
        if d.2.2.funcName = name then some (refFromItem i d) else none))
      ++ refsFromItems name rest (i + 1)

/-- All references the batch contributes to function `name`, in scan order. -/
def specRefs (b : Batch) (name : String) : List FieldRef :=
  refsFromItems name b 0

/-- Ordered current values collected for `name` across the whole batch, in
batch-discovery order: this is the value list §4.4 prescribes for a task. -/
def specValues (b : Batch) (name : String) : List Val :=
  (specRefs b name).map FieldRef.fieldVal

/-- The function name `name` occurs in some parsed directive of the batch. -/
def occursName (b : Batch) (name : String) : Prop :=
  ∃ d ∈ scanDirectives b, d.2.2.funcName = name

/-- Resolved write-back target of a directive at field `fi` of `it`: the
explicit target, or the field's own name when the target is empty. -/
def directiveTarget (it : Item) (fi : Nat) (sp : tagSpec) : String :=
  if sp.outputTarget = "" then (it.ty.fields.getD fi default).name else sp.outputTarget

/-- Resolved field targets of every directive of one record. -/
def itemTargets (it : Item) : List String :=
  (itemDirectives it).map (fun d => directiveTarget it d.1 d.2.2)

/-- Declared names of the tagged (collected) source fields of one record. -/
def itemSources (it : Item) : List String :=
  (itemDirectives it).map (fun d => (it.ty.fields.getD d.1 default).name)

/-- No directive of the batch routes its result through an `fn:` callback. -/
def noFnOutputs (b : Batch) : Prop :=
  ∀ d ∈ scanDirectives b, ¬ goStartsWith d.2.2.outputTarget "fn:"

/-- Value of field `fi` of item `i` in a batch state. -/
def fieldAt (b : Batch) (i fi : Nat) : Val :=
  (getItemD b i).fields.getD fi (.vInt 0)

/-- Static (never written) parts of every batch element. -/
def statics (b : Batch) : List (Bool × RecordTy) :=
  b.map (fun it => (it.isPtr, it.ty))

/-- Field-count shape of every batch element. -/
def shapes (b : Batch) : List Nat :=
  b.map (fun it => it.fields.length)

/-- References recorded under `name` in a discovery accumulator. -/
def refsOf : Aggs → String → List FieldRef
  | [], _ => []
  | p :: rest, name => if p.1 = name then p.2 else refsOf rest name

/-- Function names of the discovered tasks, in first-encounter order. -/
def keysOf (aggs : Aggs) : List String :=
  aggs.map Prod.fst

instance (c : Combine) (b : Batch) (order : List Nat) : Decidable (validOrder c b order) :=
  List.decidablePerm order (List.range (numTasks c b))

instance (b : Batch) (name : String) : Decidable (occursName b name) := by
  unfold occursName
  exact List.decidableBEx _ _

instance (b : Batch) : Decidable (noFnOutputs b) := by
  unfold noFnOutputs
  exact List.decidableBAll _ _

deriving instance DecidableEq for Except

/-- Handler returning the constant `v` at every position (keyed by index). -/
def constH (v : Val) : AggregateHandler := fun values _ =>
  values.enum.map (fun p => (Val.vInt (Int.ofNat p.1), some v))

/-- Handler returning each integer input incremented, keyed by index. -/
def incH : AggregateHandler := fun values _ =>
  values.enum.map (fun p =>
    (Val.vInt (Int.ofNat p.1), some (match p.2 with | .vInt n => Val.vInt (n + 1) | x => x)))

/-- Record type with two fields, each directed at a distinct function. -/
def twoFnTy : RecordTy := ⟨[⟨"A", "f,A", .tInt⟩, ⟨"B", "g,B", .tInt⟩], []⟩

/-- One-record pointer batch over `twoFnTy`. -/
def twoFnB : Batch := [⟨true, twoFnTy, [.vInt 1, .vInt 2]⟩]

/-- Sequential engine with handlers for `f` and `g`. -/
def twoFnC : Combine := ⟨false, [], [("f", constH (.vInt 10)), ("g", constH (.vInt 20))]⟩

/-- Record type with a single self-targeted `inc` directive. -/
def incTy : RecordTy := ⟨[⟨"X", "inc", .tInt⟩], []⟩

/-- One-record pointer batch over `incTy`. -/
def incB : Batch := [⟨true, incTy, [.vInt 1]⟩]

/-- Sequential engine with the deterministic `inc` handler. -/
def incC : Combine := ⟨false, [], [("inc", incH)]⟩

/-- Sequential engine registering only `f`, so a `g` directive fails. -/
def oneFnC : Combine := ⟨false, [], [("f", constH (.vInt 10))]⟩

/-- Invariants of the discovery accumulator: task names are distinct, every
task has at least one reference, and every task's function is registered. -/
def AggsWF (c : Combine) (aggs : Aggs) : Prop :=
  (keysOf aggs).Nodup ∧ ∀ p ∈ aggs, p.2 ≠ [] ∧ (lookupHandler c p.1).isSome

/-- Error one write-back entry produces on a record passed by value: the
unsettable-field error for a field target, the unaddressable-receiver error
for an `fn:` callback target. -/
def byValueRefErr (it : Item) (r : FieldRef) : String :=
  if r.output = "" || !(goStartsWith r.output "fn:") then
    "cannot set field " ++ (if r.output = "" then refNameByIndex it r.fieldIdx else r.output)
  else "output function requires addressable receiver"

/-- The two-directive batch passed by value instead of by pointer. -/
def twoFnBV : Batch := [⟨false, twoFnTy, [.vInt 1, .vInt 2]⟩]

/-- Record type with three directives; the middle one targets a field that
does not exist, so its write-back fails. -/
def threeFnTy : RecordTy :=
  ⟨[⟨"A", "f1", .tInt⟩, ⟨"B", "f2,Nope", .tInt⟩, ⟨"C", "f3", .tInt⟩], []⟩

/-- One-record pointer batch over `threeFnTy`. -/
def threeFnB : Batch := [⟨true, threeFnTy, [.vInt 1, .vInt 2, .vInt 3]⟩]

/-- Sequential engine with handlers for `f1`, `f2` and `f3`. -/
def threeFnC : Combine :=
  ⟨false, [], [("f1", constH (.vInt 10)), ("f2", constH (.vInt 20)),
    ("f3", constH (.vInt 30))]⟩

/-- Record type with one directed field and one untagged field. -/
def frameTy : RecordTy := ⟨[⟨"A", "f,A", .tInt⟩, ⟨"U", "", .tInt⟩], []⟩

/-- One-record pointer batch over `frameTy`. -/
def frameB : Batch := [⟨true, frameTy, [.vInt 1, .vInt 9]⟩]

/-- Record type whose directive reads `A` but writes the separate field
`OutA`. -/
def crossTy : RecordTy := ⟨[⟨"A", "f,OutA", .tInt⟩, ⟨"OutA", "", .tInt⟩], []⟩

/-- One-record pointer batch over `crossTy`. -/
def crossB : Batch := [⟨true, crossTy, [.vInt 1, .vInt 0]⟩]

/-- Record type with two directives on distinct fields: the first directs
`f` at the nonexistent field `Nope`, so its write-back fails; the second
directs `g` at its own field `B`. -/
def divergeTy : RecordTy := ⟨[⟨"A", "f,Nope", .tInt⟩, ⟨"B", "g,B", .tInt⟩], []⟩

/-- One-record pointer batch over `divergeTy`. -/
def divergeB : Batch := [⟨true, divergeTy, [.vInt 1, .vInt 2]⟩]

/-- One field write: the record, the field position, the value stored. -/
structure Write where
  itemIdx : Nat
  fieldIdx : Nat
  val : Val
deriving DecidableEq

/-- Perform one field write on the batch state. -/
def applyWrite (st : Batch) (w : Write) : Batch :=
  setItemFields st w.itemIdx ((getItemD st w.itemIdx).fields.set w.fieldIdx w.val)

/-- Perform a sequence of field writes, left to right. -/
def applyWrites (st : Batch) (ws : List Write) : Batch := ws.foldl applyWrite st

/-- The write a field-targeted task entry performs, or the binding error it
raises; this only consults the static parts of the batch (types and
pointer-ness), mirroring `setField`'s checks. -/
def refWrite (b : Batch) (result : ResultMap) (idx : Nat) (r : FieldRef) :
    Except String Write :=
  let out := resolveOut result idx r.fieldVal
  let it := getItemD b r.itemIdx
  let targetName := if r.output = "" then refNameByIndex it r.fieldIdx else r.output
  match findFieldIdx it.ty targetName with
  | none => .error ("cannot set field " ++ targetName)
  | some fi =>
    if !it.isPtr then .error ("cannot set field " ++ targetName)
    else
      let fty := (it.ty.fields.getD fi default).ty
      match out with
      | none => .ok ⟨r.itemIdx, fi, zeroOf fty⟩
      | some v =>
        if typeOf v = fty then .ok ⟨r.itemIdx, fi, v⟩
        else
          match convert v fty with
          | some v' => .ok ⟨r.itemIdx, fi, v'⟩
          | none => .error ("cannot assign to field " ++ targetName)

/-- Writes of a whole entry list, stopping at the first binding error. -/
def refWrites (b : Batch) (result : ResultMap) : List FieldRef → Nat → Except String (List Write)
  | [], _ => .ok []
  | r :: rest, idx =>
    match refWrite b result idx r with
    | .error e => .error e
    | .ok w =>
      match refWrites b result rest (idx + 1) with
      | .error e => .error e
      | .ok ws => .ok (w :: ws)

/-- The field writes one task performs (against the static batch `b`), or
its first error. -/
def taskWrites (c : Combine) (b : Batch) (t : AggTask) : Except String (List Write) :=
  match lookupHandler c t.name with
  | none => .error ("aggregate handler " ++ t.name ++ " not found")
  | some h => refWrites b (h t.values c.combineCtx) t.refs 0

/-- The writes of a task known to succeed. -/
def taskWritesD (c : Combine) (b : Batch) (t : AggTask) : List Write :=
  match taskWrites c b t with
  | .ok ws => ws
  | .error _ => []

/-- State transformer of one successful task. -/
def applyTask (c : Combine) (b : Batch) (st : Batch) (t : AggTask) : Batch :=
  applyWrites st (taskWritesD c b t)

/-- Field-count shape of one batch element, with the out-of-range default. -/
def shapeAt (b : Batch) (i : Nat) : Nat := (getItemD b i).fields.length

end CombineGo

namespace CombineGo

/-- C10: for the empty batch, `Process` returns success immediately — the
state is untouched and no handler is looked up or invoked (empty trace) —
regardless of the registered handlers, the context, the execution mode and
the task iteration order. -/
theorem c10_empty_batch_noop (c : Combine) (order : List Nat) :
    processT c order [] = ⟨[], none, []⟩ := rfl

/-- C5 (counterexample): the claim says the parsed `outputTarget` of
`"name,target"` is the entire remainder after the first comma; on the tag
`"f,a,b"` the code instead keeps only the second comma-segment `"a"` and
drops `"b"`, so the parsed target is not `"a,b"`. -/
theorem c5_cex_multi_comma :
    parseTag "f,a,b" = some ⟨"f", "a"⟩ ∧ parseTag "f,a,b" ≠ some ⟨"f", "a,b"⟩ := by
  decide

/-- C5 (amended): the metadata parser splits the raw directive string on
every comma and keeps only the first two segments: the trimmed first segment
is the function name and the trimmed second segment (when present) is the
output target, any later segments being discarded; parsing fails exactly when
the string is empty or the first segment is empty after trimming. -/
theorem c5_amended_split_semantics (tag : String) :
    (parseTag tag = none ↔ tag = "" ∨ goTrim ((goSplit tag).getD 0 "") = "") ∧
    (∀ sp, parseTag tag = some sp →
      sp.funcName = goTrim ((goSplit tag).getD 0 "") ∧
      sp.outputTarget =
        if 2 ≤ (goSplit tag).length then goTrim ((goSplit tag).getD 1 "") else "") := by
  unfold parseTag
  by_cases h0 : tag = ""
  · subst h0
    constructor
    · simp
    · intro sp h
      simp at h
  · simp only [h0, if_false]
    cases hsp : goSplit tag with
    | nil =>
      constructor
      · simp
        decide
      · intro sp h
        simp at h
    | cons p0 rest =>
      cases rest with
      | nil =>
        by_cases hfn : goTrim p0 = ""
        · constructor
          · simp [hfn]
          · intro sp h
            simp [hfn] at h
        · constructor
          · simp [hfn, h0]
          · intro sp h
            simp only [hfn, if_false] at h
            cases h
            simp [hfn]
      | cons p1 rest' =>
        by_cases hfn : goTrim p0 = ""
        · constructor
          · simp [hfn]
          · intro sp h
            simp [hfn] at h
        · constructor
          · simp [hfn, h0]
          · intro sp h
            simp only [hfn, if_false] at h
            cases h
            simp [hfn]

/-- C5 (amended, witness): on `"f ,a,b"` the parser yields function name
`"f"` (the trimmed first segment) and target `"a"` (the trimmed second
segment), not the remainder `"a,b"`. -/
theorem c5_amended_witness :
    tagSpec.funcName ⟨"f", "a"⟩ = goTrim ((goSplit "f ,a,b").getD 0 "") ∧
    tagSpec.outputTarget ⟨"f", "a"⟩ =
      (if 2 ≤ (goSplit "f ,a,b").length then goTrim ((goSplit "f ,a,b").getD 1 "") else "") :=
  (c5_amended_split_semantics "f ,a,b").2 ⟨"f", "a"⟩ (by decide)

/-- C3: the result value for a task entry is resolved by trying the entry's
positional index as a key first, then the entry's original field value, and
is the absence value when both are missing; an absent value makes `setField`
write the target field's zero value and `callOutputFunc` invoke the callback
with the zero value of its parameter type — the target is not left
untouched. -/
theorem c3_resolution_and_zero_write :
    (∀ (result : ResultMap) (idx : Nat) (v : Val) (o : Option Val),
      lookupRM result (.vInt (Int.ofNat idx)) = some o → resolveOut result idx v = o) ∧
    (∀ (result : ResultMap) (idx : Nat) (v : Val) (o : Option Val),
      lookupRM result (.vInt (Int.ofNat idx)) = none → lookupRM result v = some o →
        resolveOut result idx v = o) ∧
    (∀ (result : ResultMap) (idx : Nat) (v : Val),
      lookupRM result (.vInt (Int.ofNat idx)) = none → lookupRM result v = none →
        resolveOut result idx v = none) ∧
    (∀ (rt : RecordTy) (fields : List Val) (fname : String) (fi : Nat),
      findFieldIdx rt fname = some fi →
        setField true rt fields fname none =
          .ok (fields.set fi (zeroOf (rt.fields.getD fi default).ty))) ∧
    (∀ (rt : RecordTy) (fields : List Val) (mname : String) (m : Method),
      findMethod rt mname = some m →
        callOutputFunc true rt fields mname none = .ok (m.body fields (zeroOf m.argTy))) := by
  refine ⟨?_, ?_, ?_, ?_, ?_⟩
  · intro result idx v o h
    unfold resolveOut
    rw [h]
  · intro result idx v o h1 h2
    unfold resolveOut
    rw [h1, h2]
  · intro result idx v h1 h2
    unfold resolveOut
    rw [h1, h2]
  · intro rt fields fname fi h
    unfold setField
    rw [h]
    rfl
  · intro rt fields mname m h
    unfold callOutputFunc
    rw [h]
    rfl

/-- C3 (witness): with result map `{0 ↦ 7}` position `0` resolves to `7`
even though the original value `"x"` is also a possible key; and on a
pointer record, writing an absent value into an `int` field stores `0`. -/
theorem c3_witness :
    resolveOut [(Val.vInt 0, some (Val.vInt 7))] 0 (Val.vStr "x") = some (Val.vInt 7) ∧
    setField true ⟨[⟨"A", "", Ty.tInt⟩], []⟩ [Val.vInt 5] "A" none = .ok [Val.vInt 0] := by
  constructor
  · exact c3_resolution_and_zero_write.1 _ 0 _ _ (by decide)
  · have h := c3_resolution_and_zero_write.2.2.2.1 ⟨[⟨"A", "", Ty.tInt⟩], []⟩
      [Val.vInt 5] "A" 0 (by decide)
    simpa using h

/-- C7 (counterexample): with the deterministic handler `inc` (add one to
the collected value, keyed by position) and a single self-targeted field
holding `1`, the first `Process` run leaves the field at `2` but a second
run on the already mutated batch leaves it at `3`: running `Process` twice
in succession does not reproduce the state after the first run. -/
theorem c7_cex_second_run_differs :
    validOrder incC incB [0] ∧
    fieldsOf (processT incC [0] incB).state = [[.vInt 2]] ∧
    fieldsOf (processT incC [0] (processT incC [0] incB).state).state = [[.vInt 3]] ∧
    ([[Val.vInt 3]] : List (List Val)) ≠ [[Val.vInt 2]] := by
  decide

/-- C4 (counterexample): task execution order is Go map iteration order, not
first-encounter discovery order.  Discovery on this batch finds `f` before
`g`, yet the (legal) iteration order `[1, 0]` runs `g` before `f`, as the
invocation trace shows. -/
theorem c4_cex_map_iteration_order :
    validOrder twoFnC twoFnB [1, 0] ∧
    collect twoFnC twoFnB =
      .ok [("f", [⟨0, 0, .vInt 1, "A"⟩]), ("g", [⟨0, 1, .vInt 2, "B"⟩])] ∧
    (processT twoFnC [1, 0] twoFnB).err = none ∧
    (processT twoFnC [1, 0] twoFnB).trace.map Prod.fst = ["g", "f"] ∧
    (["g", "f"] : List String) ≠ ["f", "g"] := by
  decide

theorem refsOf_insertRef (aggs : Aggs) (n : String) (r : FieldRef) (name : String) :
    refsOf (insertRef aggs n r) name =
      if n = name then refsOf aggs name ++ [r] else refsOf aggs name := by
  induction aggs with
  | nil =>
    by_cases h : n = name <;> simp [insertRef, refsOf, h]
  | cons p rest ih =>
    obtain ⟨k, rs⟩ := p
    simp only [insertRef]
    by_cases hk : k = n
    · subst hk
      by_cases h : k = name <;> simp [refsOf, h]
    · rw [if_neg hk]
      by_cases h : k = name
      · subst h
        have hnk : ¬ n = k := fun he => hk he.symm
        simp [refsOf, hnk]
      · simp [refsOf, h, ih]

theorem keysOf_insertRef_mem (aggs : Aggs) (n : String) (r : FieldRef)
    (hm : n ∈ keysOf aggs) :
    keysOf (insertRef aggs n r) = keysOf aggs := by
  induction aggs with
  | nil => simp [keysOf] at hm
  | cons p rest ih =>
    obtain ⟨k, rs⟩ := p
    simp only [insertRef]
    by_cases hk : k = n
    · subst hk
      simp [keysOf]
    · rw [if_neg hk]
      simp only [keysOf, List.map_cons] at hm ⊢
      rcases List.mem_cons.mp hm with h | h
      · exact absurd h.symm hk
      · rw [show List.map Prod.fst (insertRef rest n r) = keysOf (insertRef rest n r) from rfl,
          ih h]
        rfl

theorem keysOf_insertRef_new (aggs : Aggs) (n : String) (r : FieldRef)
    (hm : n ∉ keysOf aggs) :
    keysOf (insertRef aggs n r) = keysOf aggs ++ [n] := by
  induction aggs with
  | nil => simp [insertRef, keysOf]
  | cons p rest ih =>
    obtain ⟨k, rs⟩ := p
    simp only [insertRef]
    simp only [keysOf, List.map_cons, List.mem_cons] at hm
    push_neg at hm
    rw [if_neg (fun hk => hm.1 hk.symm)]
    simp only [keysOf, List.map_cons, List.cons_append]
    rw [show List.map Prod.fst (insertRef rest n r) = keysOf (insertRef rest n r) from rfl,
      ih hm.2]
    rfl

theorem AggsWF_insertRef {c : Combine} {aggs : Aggs} {n : String} (r : FieldRef)
    (hwf : AggsWF c aggs) (hn : (lookupHandler c n).isSome) :
    AggsWF c (insertRef aggs n r) := by
  induction aggs with
  | nil =>
    refine ⟨by simp [insertRef, keysOf], ?_⟩
    intro p hp
    simp only [insertRef, List.mem_singleton] at hp
    subst hp
    exact ⟨by simp, hn⟩
  | cons q rest ih =>
    obtain ⟨k, rs⟩ := q
    obtain ⟨hnd, hmem⟩ := hwf
    simp only [keysOf, List.map_cons, List.nodup_cons] at hnd
    have hwfr : AggsWF c rest := ⟨hnd.2, fun p hp => hmem p (List.mem_cons_of_mem _ hp)⟩
    simp only [insertRef]
    by_cases hk : k = n
    · subst hk
      rw [if_pos rfl]
      refine ⟨?_, ?_⟩
      · simpa [keysOf] using hnd
      · intro p hp
        rcases List.mem_cons.mp hp with h | h
        · subst h
          exact ⟨by simp, (hmem (k, rs) (by simp)).2⟩
        · exact hmem p (List.mem_cons_of_mem _ h)
    · rw [if_neg hk]
      obtain ⟨ihnd, ihmem⟩ := ih hwfr
      refine ⟨?_, ?_⟩
      · simp only [keysOf, List.map_cons, List.nodup_cons]
        refine ⟨?_, ihnd⟩
        by_cases hm : n ∈ keysOf rest
        · rw [show List.map Prod.fst (insertRef rest n r) = keysOf (insertRef rest n r) from
            rfl, keysOf_insertRef_mem rest n r hm]
          exact hnd.1
        · rw [show List.map Prod.fst (insertRef rest n r) = keysOf (insertRef rest n r) from
            rfl, keysOf_insertRef_new rest n r hm]
          simp only [List.mem_append, List.mem_singleton]
          rintro (h | h)
          · exact hnd.1 h
          · exact hk h
      · intro p hp
        rcases List.mem_cons.mp hp with h | h
        · subst h
          exact hmem (k, rs) (by simp)
        · exact ihmem p h

theorem collectFields_refsOf {c : Combine} {i : Nat} {flds : List Val} {fds : List FieldDecl}
    {fi : Nat} {aggs aggs' : Aggs}
    (h : collectFields c i flds fds fi aggs = .ok aggs') (name : String) :
    refsOf aggs' name = refsOf aggs name ++
      ((fieldDirectives flds fds fi).filterMap (fun d =>
        if d.2.2.funcName = name then some (refFromItem i d) else none)) := by
  induction fds generalizing fi aggs with
  | nil =>
    simp only [collectFields] at h
    cases h
    simp [fieldDirectives]
  | cons fd rest ih =>
    cases hp : parseTag fd.tag with
    | none =>
      simp only [collectFields, collectField, hp] at h
      have := ih h
      simp only [fieldDirectives, hp]
      exact this
    | some sp =>
      cases hr : lookupHandler c sp.funcName with
      | none =>
        simp only [collectFields, collectField, hp, hr] at h
        exact Except.noConfusion h
      | some hh =>
        simp only [collectFields, collectField, hp, hr] at h
        have := ih h
        rw [this, refsOf_insertRef]
        simp only [fieldDirectives, hp, List.filterMap_cons]
        by_cases hnm : sp.funcName = name
        · simp [hnm, refFromItem]
        · simp [hnm]

theorem collectFields_WF {c : Combine} {i : Nat} {flds : List Val} {fds : List FieldDecl}
    {fi : Nat} {aggs aggs' : Aggs}
    (h : collectFields c i flds fds fi aggs = .ok aggs') (hwf : AggsWF c aggs) :
    AggsWF c aggs' := by
  induction fds generalizing fi aggs with
  | nil =>
    simp only [collectFields] at h
    cases h
    exact hwf
  | cons fd rest ih =>
    cases hp : parseTag fd.tag with
    | none =>
      simp only [collectFields, collectField, hp] at h
      exact ih h hwf
    | some sp =>
      cases hr : lookupHandler c sp.funcName with
      | none =>
        simp only [collectFields, collectField, hp, hr] at h
        exact Except.noConfusion h
      | some hh =>
        simp only [collectFields, collectField, hp, hr] at h
        exact ih h (AggsWF_insertRef _ hwf (by rw [hr]; rfl))

theorem collectFields_err {c : Combine} {i : Nat} {flds : List Val} {fds : List FieldDecl}
    {fi : Nat} {aggs : Aggs} {d : Nat × Val × tagSpec}
    (h : (fieldDirectives flds fds fi).find?
        (fun d => (lookupHandler c d.2.2.funcName).isNone) = some d) :
    collectFields c i flds fds fi aggs =
      .error ("handler " ++ d.2.2.funcName ++ " not registered") := by
  induction fds generalizing fi aggs with
  | nil =>
    simp [fieldDirectives] at h
  | cons fd rest ih =>
    cases hp : parseTag fd.tag with
    | none =>
      simp only [fieldDirectives, hp] at h
      simp only [collectFields, collectField, hp]
      exact ih h
    | some sp =>
      simp only [fieldDirectives, hp] at h
      cases hr : lookupHandler c sp.funcName with
      | none =>
        rw [List.find?_cons_of_pos _ (by simp [hr])] at h
        cases h
        simp only [collectFields, collectField, hp, hr]
      | some hh =>
        rw [List.find?_cons_of_neg _ (by simp [hr])] at h
        simp only [collectFields, collectField, hp, hr]
        exact ih h

theorem collectFields_ok {c : Combine} {i : Nat} {flds : List Val} {fds : List FieldDecl}
    {fi : Nat} {aggs : Aggs}
    (h : (fieldDirectives flds fds fi).find?
        (fun d => (lookupHandler c d.2.2.funcName).isNone) = none) :
    ∃ aggs', collectFields c i flds fds fi aggs = .ok aggs' := by
  induction fds generalizing fi aggs with
  | nil => exact ⟨aggs, rfl⟩
  | cons fd rest ih =>
    cases hp : parseTag fd.tag with
    | none =>
      simp only [fieldDirectives, hp] at h
      simp only [collectFields, collectField, hp]
      exact ih h
    | some sp =>
      simp only [fieldDirectives, hp, List.find?_cons] at h
      cases hr : lookupHandler c sp.funcName with
      | none =>
        rw [hr] at h
        simp at h
      | some hh =>
        rw [hr] at h
        simp only [Option.isNone_some] at h
        simp only [collectFields, collectField, hp, hr]
        exact ih h

theorem collectItems_refsOf {c : Combine} {bs : Batch} {i : Nat} {aggs aggs' : Aggs}
    (h : collectItems c bs i aggs = .ok aggs') (name : String) :
    refsOf aggs' name = refsOf aggs name ++ refsFromItems name bs i := by
  induction bs generalizing i aggs with
  | nil =>
    simp only [collectItems] at h
    cases h
    simp [refsFromItems]
  | cons it rest ih =>
    cases hf : collectFields c i it.fields it.ty.fields 0 aggs with
    | error e =>
      simp only [collectItems, hf] at h
      exact Except.noConfusion h
    | ok aggs1 =>
      simp only [collectItems, hf] at h
      have h1 := collectFields_refsOf hf name
      have h2 := ih h
      rw [h2, h1]
      simp only [refsFromItems, itemDirectives, List.append_assoc]

theorem collectItems_WF {c : Combine} {bs : Batch} {i : Nat} {aggs aggs' : Aggs}
    (h : collectItems c bs i aggs = .ok aggs') (hwf : AggsWF c aggs) :
    AggsWF c aggs' := by
  induction bs generalizing i aggs with
  | nil =>
    simp only [collectItems] at h
    cases h
    exact hwf
  | cons it rest ih =>
    cases hf : collectFields c i it.fields it.ty.fields 0 aggs with
    | error e =>
      simp only [collectItems, hf] at h
      exact Except.noConfusion h
    | ok aggs1 =>
      simp only [collectItems, hf] at h
      exact ih h (collectFields_WF hf hwf)

theorem collectItems_err {c : Combine} {bs : Batch} {i : Nat} {aggs : Aggs}
    {d : Nat × Val × tagSpec}
    (h : (bs.map itemDirectives).flatten.find?
        (fun d => (lookupHandler c d.2.2.funcName).isNone) = some d) :
    collectItems c bs i aggs =
      .error ("handler " ++ d.2.2.funcName ++ " not registered") := by
  induction bs generalizing i aggs with
  | nil => simp at h
  | cons it rest ih =>
    simp only [List.map_cons, List.flatten_cons, List.find?_append] at h
    cases hfind : (itemDirectives it).find? (fun d => (lookupHandler c d.2.2.funcName).isNone)
      with
    | some d0 =>
      rw [hfind] at h
      have hd0 : d0 = d := Option.some.injEq d0 d |>.mp h
      cases hd0
      have he := @collectFields_err c i it.fields it.ty.fields 0 aggs d
        (show (fieldDirectives it.fields it.ty.fields 0).find?
            (fun d => (lookupHandler c d.2.2.funcName).isNone) = some d from hfind)
      simp only [collectItems, he]
    | none =>
      rw [hfind] at h
      simp only [Option.none_or] at h
      obtain ⟨aggs1, hok⟩ := @collectFields_ok c i it.fields it.ty.fields 0 aggs hfind
      simp only [collectItems, hok]
      exact ih h

theorem collect_refsOf {c : Combine} {b : Batch} {aggs : Aggs}
    (h : collect c b = .ok aggs) (name : String) :
    refsOf aggs name = specRefs b name := by
  have := @collectItems_refsOf c b 0 [] aggs h name
  simpa [refsOf, specRefs] using this

theorem collect_WF {c : Combine} {b : Batch} {aggs : Aggs}
    (h : collect c b = .ok aggs) : AggsWF c aggs :=
  collectItems_WF h ⟨by simp [keysOf], by simp⟩

theorem collect_err {c : Combine} {b : Batch} {name : String}
    (h : firstUnregistered c b = some name) :
    collect c b = .error ("handler " ++ name ++ " not registered") := by
  unfold firstUnregistered at h
  rw [Option.map_eq_some'] at h
  obtain ⟨d, hd, hname⟩ := h
  subst hname
  exact collectItems_err (show (b.map itemDirectives).flatten.find? _ = some d from hd)

/-- C1: when some field directive of the batch names an unregistered
function, `Process` fails with the "not registered" error naming the first
such function found in scan order, the batch state is returned untouched
(zero field writes) and the invocation trace is empty (no handler, hence no
callback, ever runs): discovery precedes dispatch. -/
theorem c1_unregistered_handler_aborts (c : Combine) (order : List Nat) (b : Batch)
    (name : String) (h : firstUnregistered c b = some name) :
    processT c order b = ⟨b, some ("handler " ++ name ++ " not registered"), []⟩ := by
  have hb : b ≠ [] := by
    rintro rfl
    simp [firstUnregistered, scanDirectives] at h
  have hcol := collect_err h
  unfold processT
  rw [if_neg (fun hlen => hb (List.length_eq_zero.mp hlen))]
  rw [hcol]

/-- C1 (witness): the batch `twoFnB` carries directives `f` and `g`, but
`oneFnC` registers only `f`: `Process` aborts during discovery naming `g`,
with the state unchanged and no handler invoked. -/
theorem c1_witness :
    processT oneFnC [0] twoFnB =
      ⟨twoFnB, some ("handler " ++ "g" ++ " not registered"), []⟩ :=
  c1_unregistered_handler_aborts oneFnC [0] twoFnB "g" (by decide)


theorem runTask_inv (c : Combine) (st : Batch) (t : AggTask)
    (h : (runTask c st t).2.1 = none) :
    (runTask c st t).2.2 = some (t.name, t.values, c.combineCtx) := by
  unfold runTask at h ⊢
  cases hl : lookupHandler c t.name with
  | none => rw [hl] at h; exact Option.noConfusion h
  | some hh => rfl

theorem seqRun_trace_of_ok {c : Combine} {ts : List AggTask} {st : Batch}
    (h : (seqRun c ts st).2.1 = none) :
    (seqRun c ts st).2.2 = ts.map (fun t => (t.name, t.values, c.combineCtx)) := by
  induction ts generalizing st with
  | nil => simp [seqRun]
  | cons t rest ih =>
    rcases h1 : runTask c st t with ⟨st', e, tr⟩
    cases e with
    | some err =>
      rw [seqRun] at h
      simp only [h1] at h
      exact Option.noConfusion h
    | none =>
      have htr : tr = some (t.name, t.values, c.combineCtx) := by
        have h2 := runTask_inv c st t (by rw [h1])
        rw [h1] at h2
        exact h2
      rw [seqRun] at h ⊢
      simp only [h1] at h ⊢
      rw [htr, ih h]
      rfl

theorem concRun_trace_of_ok {c : Combine} {ts : List AggTask} {st : Batch}
    (h : (concRun c ts st).2.1 = none) :
    (concRun c ts st).2.2 = ts.map (fun t => (t.name, t.values, c.combineCtx)) := by
  induction ts generalizing st with
  | nil => simp [concRun]
  | cons t rest ih =>
    rcases h1 : runTask c st t with ⟨st', e, tr⟩
    rw [concRun] at h ⊢
    simp only [h1] at h ⊢
    cases e with
    | some err => exact Option.noConfusion h
    | none =>
      have htr : tr = some (t.name, t.values, c.combineCtx) := by
        have h2 := runTask_inv c st t (by rw [h1])
        rw [h1] at h2
        exact h2
      simp only at h ⊢
      rw [htr, ih h]
      rfl

theorem filterMap_getElem_range {α : Type} (l : List α) :
    (List.range l.length).filterMap (fun i => l[i]?) = l := by
  induction l with
  | nil => simp
  | cons a rest ih =>
    rw [List.length_cons, List.range_succ_eq_map, List.filterMap_cons, List.filterMap_map]
    have hc : ((fun i => (a :: rest)[i]?) ∘ Nat.succ) = fun i => rest[i]? := by
      funext i
      simp
    simp only [List.getElem?_cons_zero, hc, ih]

theorem orderTasks_perm {order : List Nat} (ts : List AggTask)
    (hord : order.Perm (List.range ts.length)) :
    (orderTasks order ts).Perm ts := by
  have h := hord.filterMap (fun i => ts[i]?)
  rw [filterMap_getElem_range] at h
  exact h

theorem numTasks_eq {c : Combine} {b : Batch} {aggs : Aggs}
    (h : collect c b = .ok aggs) : numTasks c b = aggs.length := by
  unfold numTasks
  rw [h]

theorem buildTasks_length (aggs : Aggs) : (buildTasks aggs).length = aggs.length := by
  simp [buildTasks]

theorem buildTasks_filter_not_mem {aggs : Aggs} {name : String}
    (h : name ∉ keysOf aggs) :
    (buildTasks aggs).filter (fun t => t.name == name) = [] := by
  induction aggs with
  | nil => simp [buildTasks]
  | cons p rest ih =>
    simp only [keysOf, List.map_cons, List.mem_cons] at h
    push_neg at h
    simp only [buildTasks, List.map_cons, List.filter_cons]
    rw [if_neg (by simpa using fun he : p.1 = name => h.1 he.symm)]
    exact ih (by simpa [keysOf] using h.2)

theorem buildTasks_filter_of_nodup {aggs : Aggs} (hnd : (keysOf aggs).Nodup)
    {name : String} (hmem : refsOf aggs name ≠ []) :
    (buildTasks aggs).filter (fun t => t.name == name) =
      [⟨name, refsOf aggs name, (refsOf aggs name).map FieldRef.fieldVal⟩] := by
  induction aggs with
  | nil => simp [refsOf] at hmem
  | cons p rest ih =>
    obtain ⟨k, rs⟩ := p
    simp only [keysOf, List.map_cons, List.nodup_cons] at hnd
    by_cases hk : k = name
    · subst hk
      have hrest : (buildTasks rest).filter (fun t => t.name == k) = [] :=
        buildTasks_filter_not_mem hnd.1
      have hstep : (buildTasks ((k, rs) :: rest)).filter (fun t => t.name == k) =
          ⟨k, rs, rs.map FieldRef.fieldVal⟩ ::
            (buildTasks rest).filter (fun t => t.name == k) := by
        simp [buildTasks, List.filter_cons]
      rw [hstep, hrest]
      simp [refsOf]
    · have hr : refsOf ((k, rs) :: rest) name = refsOf rest name := by
        simp [refsOf, hk]
      have hstep : (buildTasks ((k, rs) :: rest)).filter (fun t => t.name == name) =
          (buildTasks rest).filter (fun t => t.name == name) := by
        simp [buildTasks, List.filter_cons, hk]
      rw [hr] at hmem ⊢
      rw [hstep]
      exact ih hnd.2 hmem

theorem refsFromItems_ne_nil {name : String} {bs : Batch} {i : Nat}
    (h : ∃ d ∈ (bs.map itemDirectives).flatten, d.2.2.funcName = name) :
    refsFromItems name bs i ≠ [] := by
  induction bs generalizing i with
  | nil => simp at h
  | cons it rest ih =>
    obtain ⟨d, hd, hname⟩ := h
    simp only [List.map_cons, List.flatten_cons, List.mem_append] at hd
    rcases hd with hd | hd
    · have : refFromItem i d ∈ (itemDirectives it).filterMap (fun d =>
          if d.2.2.funcName = name then some (refFromItem i d) else none) := by
        apply List.mem_filterMap.mpr
        exact ⟨d, hd, by rw [if_pos hname]⟩
      simp only [refsFromItems]
      intro hcon
      rw [List.append_eq_nil] at hcon
      rw [hcon.1] at this
      exact List.not_mem_nil _ this
    · simp only [refsFromItems]
      intro hcon
      rw [List.append_eq_nil] at hcon
      exact ih ⟨d, hd, hname⟩ hcon.2

theorem processT_eq_seq {c : Combine} {order : List Nat} {b : Batch} {aggs : Aggs}
    (hb : b ≠ []) (hc : c.concurrent = false) (hcol : collect c b = .ok aggs) :
    processT c order b =
      ⟨(seqRun c (orderTasks order (buildTasks aggs)) b).1,
       (seqRun c (orderTasks order (buildTasks aggs)) b).2.1,
       (seqRun c (orderTasks order (buildTasks aggs)) b).2.2⟩ := by
  unfold processT
  rw [if_neg (fun hlen => hb (List.length_eq_zero.mp hlen))]
  simp only [hcol, hc, Bool.false_eq_true, if_false]

theorem processT_eq_conc {c : Combine} {order : List Nat} {b : Batch} {aggs : Aggs}
    (hb : b ≠ []) (hc : c.concurrent = true) (hcol : collect c b = .ok aggs) :
    processT c order b =
      ⟨(concRun c (orderTasks order (buildTasks aggs)) b).1,
       (concRun c (orderTasks order (buildTasks aggs)) b).2.1,
       (concRun c (orderTasks order (buildTasks aggs)) b).2.2⟩ := by
  unfold processT
  rw [if_neg (fun hlen => hb (List.length_eq_zero.mp hlen))]
  simp only [hcol, hc, eq_self_iff_true, if_true]

/-- C2 (counterexample): registration of every directive's function does not
guarantee each handler one invocation.  On `threeFnB` every function (`f1`,
`f2`, `f3`) is registered and `f3` occurs in a directive, but the `f2` task
fails at write-back (its target field `Nope` does not exist), and lines
256-260 make sequential mode return that error immediately: the `f3` handler
is never invoked — its trace filter is empty, not a singleton. -/
theorem c2_cex_binding_error_skips_handler :
    firstUnregistered threeFnC threeFnB = none ∧
    validOrder threeFnC threeFnB [0, 1, 2] ∧
    occursName threeFnB "f3" ∧
    (processT threeFnC [0, 1, 2] threeFnB).err =
      some "cannot set field Nope" ∧
    (processT threeFnC [0, 1, 2] threeFnB).trace.filter
      (fun e => e.1 == "f3") = [] := by
  refine ⟨rfl, ?_, ?_, rfl, rfl⟩
  · decide
  · exact ⟨(2, Val.vInt 3, ⟨"f3", ""⟩), by decide, rfl⟩

/-- C2: in a batch whose `Process` call succeeds, every function name that
occurs in some directive has its handler invoked exactly once, receiving the
ordered list of all current field values collected for it across the whole
batch (all fields and all records merged, in batch-discovery order) together
with the engine context: the invocation trace contains exactly one entry for
that name, carrying exactly those values. -/
theorem c2_each_handler_once (c : Combine) (order : List Nat) (b : Batch) (name : String)
    (hord : validOrder c b order) (hocc : occursName b name)
    (hok : (processT c order b).err = none) :
    (processT c order b).trace.filter (fun e => e.1 == name) =
      [(name, specValues b name, c.combineCtx)] := by
  have hb : b ≠ [] := by
    rintro rfl
    obtain ⟨d, hd, _⟩ := hocc
    simp [scanDirectives] at hd
  cases hcol : collect c b with
  | error e =>
    rw [processT, if_neg (fun hlen => hb (List.length_eq_zero.mp hlen))] at hok
    simp only [hcol] at hok
    exact Option.noConfusion hok
  | ok aggs =>
    have hwf := collect_WF hcol
    have hrefs := collect_refsOf hcol name
    have hne : refsOf aggs name ≠ [] := by
      rw [hrefs]
      exact refsFromItems_ne_nil hocc
    have hperm : (orderTasks order (buildTasks aggs)).Perm (buildTasks aggs) := by
      apply orderTasks_perm
      rw [buildTasks_length]
      rw [validOrder, numTasks_eq hcol] at hord
      exact hord
    have hfilter := buildTasks_filter_of_nodup hwf.1 hne
    have hfperm := hperm.filter (fun t => t.name == name)
    rw [hfilter] at hfperm
    have hfeq := hfperm.eq_singleton
    cases hc : c.concurrent with
    | true =>
      rw [processT_eq_conc hb hc hcol] at hok ⊢
      simp only at hok ⊢
      rw [concRun_trace_of_ok hok, List.filter_map]
      have hcomp : ((fun e : Inv => e.1 == name) ∘ fun t : AggTask =>
          (t.name, t.values, c.combineCtx)) = fun t : AggTask => t.name == name := rfl
      rw [hcomp, hfeq]
      simp only [List.map_cons, List.map_nil]
      rw [hrefs]
      rfl
    | false =>
      rw [processT_eq_seq hb hc hcol] at hok ⊢
      simp only at hok ⊢
      rw [seqRun_trace_of_ok hok, List.filter_map]
      have hcomp : ((fun e : Inv => e.1 == name) ∘ fun t : AggTask =>
          (t.name, t.values, c.combineCtx)) = fun t : AggTask => t.name == name := rfl
      rw [hcomp, hfeq]
      simp only [List.map_cons, List.map_nil]
      rw [hrefs]
      rfl

/-- C2 (witness): on the two-directive batch both handlers succeed and the
`f` handler is invoked exactly once, with the batch-wide collected values. -/
theorem c2_witness :
    (processT twoFnC [1, 0] twoFnB).trace.filter (fun e => e.1 == "f") =
      [("f", specValues twoFnB "f", twoFnC.combineCtx)] :=
  c2_each_handler_once twoFnC [1, 0] twoFnB "f" (by decide) (by decide) (by decide)


theorem setField_byvalue (rt : RecordTy) (fields : List Val) (fname : String)
    (v : Option Val) :
    setField false rt fields fname v = .error ("cannot set field " ++ fname) := by
  unfold setField
  cases findFieldIdx rt fname <;> rfl

theorem callOutputFunc_byvalue (rt : RecordTy) (fields : List Val) (m : String)
    (arg : Option Val) :
    callOutputFunc false rt fields m arg =
      .error "output function requires addressable receiver" := rfl

theorem bindRef_byvalue {st : Batch} {idx : Nat} {r : FieldRef} {result : ResultMap}
    (hp : (getItemD st r.itemIdx).isPtr = false) :
    bindRef st idx r result = .error (byValueRefErr (getItemD st r.itemIdx) r) := by
  unfold bindRef byValueRefErr
  by_cases hc : (decide (r.output = "") || !(goStartsWith r.output "fn:")) = true
  · rw [if_pos hc, if_pos hc, hp]
    simp only [setField_byvalue]
  · rw [if_neg hc, if_neg hc, hp]
    simp only [callOutputFunc_byvalue]

theorem getItemD_isPtr_false {b : Batch} (hv : ∀ it ∈ b, it.isPtr = false) (i : Nat) :
    (getItemD b i).isPtr = false := by
  unfold getItemD
  by_cases h : i < b.length
  · rw [List.getD_eq_getElem _ _ h]
    exact hv _ (List.getElem_mem h)
  · rw [List.getD_eq_default _ _ (Nat.le_of_not_lt h)]
    rfl

theorem runTask_byvalue {c : Combine} {st : Batch} {t : AggTask} {r : FieldRef}
    {rrest : List FieldRef}
    (hv : ∀ i, (getItemD st i).isPtr = false)
    (hname : (lookupHandler c t.name).isSome) (hrefs : t.refs = r :: rrest) :
    runTask c st t = (st, some (byValueRefErr (getItemD st r.itemIdx) r),
      some (t.name, t.values, c.combineCtx)) := by
  unfold runTask
  cases hl : lookupHandler c t.name with
  | none => rw [hl] at hname; exact absurd hname (by simp)
  | some hh =>
    simp only [hrefs, bindRefs, bindRef_byvalue (hv r.itemIdx)]

theorem orderTasks_nil (order : List Nat) : orderTasks order [] = [] := by
  unfold orderTasks
  induction order with
  | nil => rfl
  | cons i rest ih =>
    simp only [List.filterMap_cons, List.getElem?_nil] at ih ⊢
    exact ih

theorem mem_of_mem_orderTasks {order : List Nat} {ts : List AggTask} {t : AggTask}
    (h : t ∈ orderTasks order ts) : t ∈ ts := by
  unfold orderTasks at h
  obtain ⟨i, _, hi⟩ := List.mem_filterMap.mp h
  exact List.getElem?_mem hi

theorem buildTasks_mem_props {c : Combine} {aggs : Aggs} (hwf : AggsWF c aggs)
    {t : AggTask} (ht : t ∈ buildTasks aggs) :
    (lookupHandler c t.name).isSome ∧ t.refs ≠ [] := by
  unfold buildTasks at ht
  obtain ⟨p, hp, hpt⟩ := List.mem_map.mp ht
  obtain ⟨hne, hreg⟩ := hwf.2 p hp
  cases hpt
  exact ⟨hreg, hne⟩

theorem concRun_byvalue_state {c : Combine} {ts : List AggTask} {st : Batch}
    (hv : ∀ i, (getItemD st i).isPtr = false)
    (hprop : ∀ t ∈ ts, (lookupHandler c t.name).isSome ∧ t.refs ≠ []) :
    (concRun c ts st).1 = st := by
  induction ts with
  | nil => rfl
  | cons t rest ih =>
    obtain ⟨hname, hne⟩ := hprop t (by simp)
    cases hrefs : t.refs with
    | nil => exact absurd hrefs hne
    | cons r rrest =>
      rw [concRun]
      simp only [runTask_byvalue hv hname hrefs]
      exact ih (fun t ht => hprop t (List.mem_cons_of_mem _ ht))

/-- C8: on a batch whose elements are plain struct values (not pointers),
with every directive registered and at least one task collected, `Process`
always fails and never mutates any record; the reported error is determined
by the first executed entry: the "cannot set field" unsettable-field error
for a field target, the addressable-receiver error for an `fn:` callback
target. -/
theorem c8_byvalue_never_mutates (c : Combine) (order : List Nat) (b : Batch)
    (aggs : Aggs) (t0 : AggTask) (rest : List AggTask)
    (hv : ∀ it ∈ b, it.isPtr = false)
    (hcol : collect c b = .ok aggs)
    (hts : orderTasks order (buildTasks aggs) = t0 :: rest) :
    (processT c order b).state = b ∧
    ∃ r rrest, t0.refs = r :: rrest ∧
      (processT c order b).err = some (byValueRefErr (getItemD b r.itemIdx) r) := by
  have hb : b ≠ [] := by
    rintro rfl
    have haggs : aggs = [] := by
      have h0 : Except.ok ([] : Aggs) = Except.ok aggs := hcol
      injection h0 with h
      exact h.symm
    subst haggs
    rw [show buildTasks [] = [] from rfl, orderTasks_nil] at hts
    exact List.noConfusion hts
  have hwf := collect_WF hcol
  have hprop : ∀ t ∈ orderTasks order (buildTasks aggs),
      (lookupHandler c t.name).isSome ∧ t.refs ≠ [] :=
    fun t ht => buildTasks_mem_props hwf (mem_of_mem_orderTasks ht)
  have hvi := getItemD_isPtr_false hv
  obtain ⟨hname0, hne0⟩ := hprop t0 (by rw [hts]; simp)
  cases hrefs0 : t0.refs with
  | nil => exact absurd hrefs0 hne0
  | cons r rrest =>
    refine ⟨?_, r, rrest, rfl, ?_⟩
    · cases hc : c.concurrent with
      | true =>
        rw [processT_eq_conc hb hc hcol, hts]
        exact concRun_byvalue_state hvi (by rw [← hts]; exact hprop)
      | false =>
        rw [processT_eq_seq hb hc hcol, hts]
        rw [seqRun]
        simp only [runTask_byvalue hvi hname0 hrefs0]
    · cases hc : c.concurrent with
      | true =>
        rw [processT_eq_conc hb hc hcol, hts]
        rw [concRun]
        simp only [runTask_byvalue hvi hname0 hrefs0]
      | false =>
        rw [processT_eq_seq hb hc hcol, hts]
        rw [seqRun]
        simp only [runTask_byvalue hvi hname0 hrefs0]

/-- C8 (witness): the two-directive record passed by value makes `Process`
fail with the unsettable-field error of the first executed entry and leaves
the batch untouched. -/
theorem c8_witness :
    (processT twoFnC [0, 1] twoFnBV).state = twoFnBV ∧
    ∃ r rrest,
      (⟨"f", [⟨0, 0, .vInt 1, "A"⟩], [.vInt 1]⟩ : AggTask).refs = r :: rrest ∧
      (processT twoFnC [0, 1] twoFnBV).err =
        some (byValueRefErr (getItemD twoFnBV r.itemIdx) r) :=
  c8_byvalue_never_mutates twoFnC [0, 1] twoFnBV
    [("f", [⟨0, 0, .vInt 1, "A"⟩]), ("g", [⟨0, 1, .vInt 2, "B"⟩])]
    ⟨"f", [⟨0, 0, .vInt 1, "A"⟩], [.vInt 1]⟩
    [⟨"g", [⟨0, 1, .vInt 2, "B"⟩], [.vInt 2]⟩]
    (by decide) (by decide) (by decide)


theorem setItemFields_length (b : Batch) (i : Nat) (f : List Val) :
    (setItemFields b i f).length = b.length := by
  induction b generalizing i with
  | nil => rfl
  | cons it rest ih =>
    cases i with
    | zero => rfl
    | succ n => simp [setItemFields, ih]

theorem setItemFields_oob {b : Batch} {i : Nat} (h : b.length ≤ i) (f : List Val) :
    setItemFields b i f = b := by
  induction b generalizing i with
  | nil => cases i <;> rfl
  | cons it rest ih =>
    cases i with
    | zero => simp at h
    | succ n =>
      simp only [List.length_cons, Nat.succ_le_succ_iff] at h
      simp [setItemFields, ih h]

theorem getItemD_setItemFields_ne {b : Batch} {i j : Nat} (h : i ≠ j) (f : List Val) :
    getItemD (setItemFields b j f) i = getItemD b i := by
  induction b generalizing i j with
  | nil => cases j <;> rfl
  | cons it rest ih =>
    cases j with
    | zero =>
      cases i with
      | zero => exact absurd rfl h
      | succ m => rfl
    | succ n =>
      cases i with
      | zero => rfl
      | succ m =>
        simp only [setItemFields, getItemD, List.getD_cons_succ]
        exact ih (fun he : m = n => h (by rw [he]))

theorem getItemD_setItemFields_self {b : Batch} {i : Nat} (h : i < b.length)
    (f : List Val) :
    getItemD (setItemFields b i f) i = { getItemD b i with fields := f } := by
  induction b generalizing i with
  | nil => simp at h
  | cons it rest ih =>
    cases i with
    | zero => rfl
    | succ n =>
      simp only [List.length_cons, Nat.succ_lt_succ_iff] at h
      simp only [setItemFields, getItemD, List.getD_cons_succ]
      exact ih h

theorem setItemFields_self (b : Batch) (i : Nat) (f g : List Val) :
    setItemFields (setItemFields b i f) i g = setItemFields b i g := by
  induction b generalizing i with
  | nil => cases i <;> rfl
  | cons it rest ih =>
    cases i with
    | zero => rfl
    | succ n => simp [setItemFields, ih]

theorem setItemFields_comm {b : Batch} {i j : Nat} (h : i ≠ j) (f g : List Val) :
    setItemFields (setItemFields b i f) j g = setItemFields (setItemFields b j g) i f := by
  induction b generalizing i j with
  | nil => cases i <;> cases j <;> rfl
  | cons it rest ih =>
    cases i with
    | zero =>
      cases j with
      | zero => exact absurd rfl h
      | succ n => rfl
    | succ m =>
      cases j with
      | zero => rfl
      | succ n =>
        simp only [setItemFields, List.cons.injEq, true_and]
        exact ih (fun he : m = n => h (by rw [he]))

theorem statics_setItemFields (b : Batch) (i : Nat) (f : List Val) :
    statics (setItemFields b i f) = statics b := by
  induction b generalizing i with
  | nil => cases i <;> rfl
  | cons it rest ih =>
    cases i with
    | zero => rfl
    | succ n =>
      simp only [setItemFields, statics, List.map_cons]
      rw [show List.map (fun it => (it.isPtr, it.ty)) (setItemFields rest n f) =
        statics (setItemFields rest n f) from rfl, ih]
      rfl

theorem statics_applyWrite (st : Batch) (w : Write) :
    statics (applyWrite st w) = statics st :=
  statics_setItemFields _ _ _

theorem statics_applyWrites (st : Batch) (ws : List Write) :
    statics (applyWrites st ws) = statics st := by
  induction ws generalizing st with
  | nil => rfl
  | cons w rest ih =>
    rw [applyWrites, List.foldl_cons]
    rw [show List.foldl applyWrite (applyWrite st w) rest =
      applyWrites (applyWrite st w) rest from rfl, ih, statics_applyWrite]

theorem length_applyWrite (st : Batch) (w : Write) :
    (applyWrite st w).length = st.length :=
  setItemFields_length _ _ _

theorem shapeAt_applyWrite (st : Batch) (w : Write) (i : Nat) :
    shapeAt (applyWrite st w) i = shapeAt st i := by
  unfold shapeAt applyWrite
  by_cases hi : w.itemIdx = i
  · subst hi
    by_cases hr : w.itemIdx < st.length
    · rw [getItemD_setItemFields_self hr]
      simp [List.length_set]
    · rw [setItemFields_oob (Nat.le_of_not_lt hr)]
  · rw [getItemD_setItemFields_ne (fun he => hi he.symm)]

theorem shapeAt_applyWrites (st : Batch) (ws : List Write) (i : Nat) :
    shapeAt (applyWrites st ws) i = shapeAt st i := by
  induction ws generalizing st with
  | nil => rfl
  | cons w rest ih =>
    rw [applyWrites, List.foldl_cons]
    rw [show List.foldl applyWrite (applyWrite st w) rest =
      applyWrites (applyWrite st w) rest from rfl, ih, shapeAt_applyWrite]

theorem fieldAt_applyWrite_ne {st : Batch} {w : Write} {i fi : Nat}
    (h : ¬(w.itemIdx = i ∧ w.fieldIdx = fi)) :
    fieldAt (applyWrite st w) i fi = fieldAt st i fi := by
  unfold applyWrite fieldAt
  by_cases hi : w.itemIdx = i
  · subst hi
    by_cases hr : w.itemIdx < st.length
    · rw [getItemD_setItemFields_self hr]
      have hfi : w.fieldIdx ≠ fi := fun he => h ⟨rfl, he⟩
      simp only [List.getD_eq_getElem?_getD, List.getElem?_set_ne hfi]
    · rw [setItemFields_oob (Nat.le_of_not_lt hr)]
  · rw [getItemD_setItemFields_ne (fun he => hi he.symm)]

theorem fieldAt_applyWrite_self (st : Batch) (w : Write) :
    fieldAt (applyWrite st w) w.itemIdx w.fieldIdx =
      if w.itemIdx < st.length ∧ w.fieldIdx < shapeAt st w.itemIdx then w.val
      else fieldAt st w.itemIdx w.fieldIdx := by
  unfold applyWrite fieldAt shapeAt
  by_cases hr : w.itemIdx < st.length
  · rw [getItemD_setItemFields_self hr]
    by_cases hf : w.fieldIdx < (getItemD st w.itemIdx).fields.length
    · rw [if_pos ⟨hr, hf⟩]
      simp only [List.getD_eq_getElem?_getD, List.getElem?_set_self hf, Option.getD_some]
    · rw [if_neg (fun hc => hf hc.2)]
      simp only [List.getD_eq_getElem?_getD]
      rw [List.getElem?_eq_none (by simpa using Nat.le_of_not_lt hf)]
      rw [List.getElem?_eq_none (Nat.le_of_not_lt hf)]
  · rw [setItemFields_oob (Nat.le_of_not_lt hr), if_neg (fun hc => hr hc.1)]

theorem fieldAt_applyWrites_ne {st : Batch} {ws : List Write} {i fi : Nat}
    (h : ∀ w ∈ ws, ¬(w.itemIdx = i ∧ w.fieldIdx = fi)) :
    fieldAt (applyWrites st ws) i fi = fieldAt st i fi := by
  induction ws generalizing st with
  | nil => rfl
  | cons w rest ih =>
    rw [applyWrites, List.foldl_cons]
    rw [show List.foldl applyWrite (applyWrite st w) rest =
      applyWrites (applyWrite st w) rest from rfl]
    rw [ih (fun w' hw' => h w' (List.mem_cons_of_mem _ hw'))]
    exact fieldAt_applyWrite_ne (h w (by simp))

theorem batch_ext {b1 b2 : Batch}
    (hs : statics b1 = statics b2)
    (hsh : ∀ i, shapeAt b1 i = shapeAt b2 i)
    (hf : ∀ i fi, fieldAt b1 i fi = fieldAt b2 i fi) : b1 = b2 := by
  have hlen : b1.length = b2.length := by
    have := congrArg List.length hs
    simpa [statics] using this
  apply List.ext_getElem hlen
  intro n h1 h2
  have hstat : (b1[n].isPtr, b1[n].ty) = (b2[n].isPtr, b2[n].ty) := by
    have h1s : n < (statics b1).length := by simpa [statics] using h1
    have h2s : n < (statics b2).length := by simpa [statics] using h2
    have hq : (statics b1)[n]? = (statics b2)[n]? := by rw [hs]
    rw [List.getElem?_eq_getElem h1s, List.getElem?_eq_getElem h2s] at hq
    have hv := (Option.some.injEq _ _).mp hq
    simpa [statics, List.getElem_map] using hv
  have hg1 : getItemD b1 n = b1[n] := List.getD_eq_getElem _ _ h1
  have hg2 : getItemD b2 n = b2[n] := List.getD_eq_getElem _ _ h2
  have hflen : b1[n].fields.length = b2[n].fields.length := by
    have := hsh n
    unfold shapeAt at this
    rw [hg1, hg2] at this
    exact this
  have hfields : b1[n].fields = b2[n].fields := by
    apply List.ext_getElem hflen
    intro fi hf1 hf2
    have := hf n fi
    unfold fieldAt at this
    rw [hg1, hg2] at this
    rw [List.getD_eq_getElem _ _ hf1, List.getD_eq_getElem _ _ hf2] at this
    exact this
  have he1 : b1[n] = ⟨b1[n].isPtr, b1[n].ty, b1[n].fields⟩ := rfl
  have he2 : b2[n] = ⟨b2[n].isPtr, b2[n].ty, b2[n].fields⟩ := rfl
  rw [he1, he2, (Prod.mk.injEq _ _ _ _).mp hstat |>.1, (Prod.mk.injEq _ _ _ _).mp hstat |>.2,
    hfields]


theorem applyWrites_append (s : Batch) (l1 l2 : List Write) :
    applyWrites s (l1 ++ l2) = applyWrites (applyWrites s l1) l2 :=
  List.foldl_append _ _ _ _

theorem applyWrite_comm {st : Batch} {w1 w2 : Write}
    (h : w1.itemIdx ≠ w2.itemIdx ∨ w1.fieldIdx ≠ w2.fieldIdx) :
    applyWrite (applyWrite st w1) w2 = applyWrite (applyWrite st w2) w1 := by
  by_cases hi : w1.itemIdx = w2.itemIdx
  · have hf : w1.fieldIdx ≠ w2.fieldIdx := by
      rcases h with h | h
      · exact absurd hi h
      · exact h
    by_cases hr : w1.itemIdx < st.length
    · unfold applyWrite
      rw [← hi]
      rw [getItemD_setItemFields_self hr, getItemD_setItemFields_self hr]
      rw [setItemFields_self, setItemFields_self]
      rw [List.set_comm _ _ _ hf]
    · have hle := Nat.le_of_not_lt hr
      unfold applyWrite
      rw [← hi]
      simp only [setItemFields_oob hle]
  · have h1 : w2.itemIdx ≠ w1.itemIdx := fun he => hi he.symm
    unfold applyWrite
    rw [getItemD_setItemFields_ne h1, getItemD_setItemFields_ne hi]
    exact setItemFields_comm hi _ _

theorem applyWrite_applyWrites_comm {w : Write} {ws : List Write} :
    ∀ {st : Batch},
    (∀ w2 ∈ ws, w.itemIdx ≠ w2.itemIdx ∨ w.fieldIdx ≠ w2.fieldIdx) →
    applyWrites (applyWrite st w) ws = applyWrite (applyWrites st ws) w := by
  induction ws with
  | nil => intro st _; rfl
  | cons w2 rest ih =>
    intro st h
    have h2 := h w2 (by simp)
    have hrest := fun w3 hw3 => h w3 (List.mem_cons_of_mem _ hw3)
    calc applyWrites (applyWrite st w) (w2 :: rest)
        = applyWrites (applyWrite (applyWrite st w) w2) rest := rfl
      _ = applyWrites (applyWrite (applyWrite st w2) w) rest := by
            rw [applyWrite_comm h2]
      _ = applyWrite (applyWrites (applyWrite st w2) rest) w := ih hrest
      _ = applyWrite (applyWrites st (w2 :: rest)) w := rfl

theorem applyWrites_comm {ws1 ws2 : List Write} :
    ∀ {st : Batch},
    (∀ w1 ∈ ws1, ∀ w2 ∈ ws2, w1.itemIdx ≠ w2.itemIdx ∨ w1.fieldIdx ≠ w2.fieldIdx) →
    applyWrites (applyWrites st ws1) ws2 = applyWrites (applyWrites st ws2) ws1 := by
  induction ws1 with
  | nil => intro st _; rfl
  | cons w1 rest ih =>
    intro st h
    have h1 := h w1 (by simp)
    have hrest := fun w hw w2 hw2 => h w (List.mem_cons_of_mem _ hw) w2 hw2
    calc applyWrites (applyWrites st (w1 :: rest)) ws2
        = applyWrites (applyWrites (applyWrite st w1) rest) ws2 := rfl
      _ = applyWrites (applyWrites (applyWrite st w1) ws2) rest := ih hrest
      _ = applyWrites (applyWrite (applyWrites st ws2) w1) rest := by
            rw [applyWrite_applyWrites_comm h1]
      _ = applyWrites (applyWrites st ws2) (w1 :: rest) := rfl

theorem fieldAt_oob {b : Batch} {i fi : Nat}
    (h : ¬(i < b.length ∧ fi < shapeAt b i)) : fieldAt b i fi = .vInt 0 := by
  unfold fieldAt
  by_cases hi : i < b.length
  · have hfi : ¬ fi < (getItemD b i).fields.length := by
      intro hc
      exact h ⟨hi, hc⟩
    rw [List.getD_eq_default _ _ (Nat.le_of_not_lt hfi)]
  · unfold getItemD
    rw [List.getD_eq_default _ _ (Nat.le_of_not_lt hi)]
    rfl

theorem length_statics_eq {x y : Batch} (hs : statics x = statics y) :
    x.length = y.length := by
  have := congrArg List.length hs
  simpa [statics] using this

theorem fieldAt_applyWrites_congr {ws : List Write} :
    ∀ {x y : Batch}, x.length = y.length → (∀ j, shapeAt x j = shapeAt y j) →
    ∀ {i fi : Nat}, fieldAt x i fi = fieldAt y i fi →
    fieldAt (applyWrites x ws) i fi = fieldAt (applyWrites y ws) i fi := by
  induction ws with
  | nil => intro x y _ _ i fi h; exact h
  | cons w rest ih =>
    intro x y hlen hsh i fi h
    have hlen2 : (applyWrite x w).length = (applyWrite y w).length := by
      rw [length_applyWrite, length_applyWrite, hlen]
    have hsh2 : ∀ j, shapeAt (applyWrite x w) j = shapeAt (applyWrite y w) j := by
      intro j
      rw [shapeAt_applyWrite, shapeAt_applyWrite, hsh]
    have hstep : fieldAt (applyWrite x w) i fi = fieldAt (applyWrite y w) i fi := by
      by_cases hit : w.itemIdx = i ∧ w.fieldIdx = fi
      · obtain ⟨h1, h2⟩ := hit
        subst h1
        subst h2
        rw [fieldAt_applyWrite_self, fieldAt_applyWrite_self, hlen, hsh]
        by_cases hin : w.itemIdx < y.length ∧ w.fieldIdx < shapeAt y w.itemIdx
        · rw [if_pos hin, if_pos hin]
        · rw [if_neg hin, if_neg hin]
          exact h
      · rw [fieldAt_applyWrite_ne hit, fieldAt_applyWrite_ne hit]
        exact h
    exact ih hlen2 hsh2 hstep

theorem applyWrite_congr_offdiag {x y : Batch} {w : Write}
    (hs : statics x = statics y) (hsh : ∀ i, shapeAt x i = shapeAt y i)
    (hf : ∀ i fi, ¬(w.itemIdx = i ∧ w.fieldIdx = fi) → fieldAt x i fi = fieldAt y i fi) :
    applyWrite x w = applyWrite y w := by
  apply batch_ext
  · rw [statics_applyWrite, statics_applyWrite]
    exact hs
  · intro i
    rw [shapeAt_applyWrite, shapeAt_applyWrite]
    exact hsh i
  · intro i fi
    by_cases hit : w.itemIdx = i ∧ w.fieldIdx = fi
    · obtain ⟨h1, h2⟩ := hit
      subst h1
      subst h2
      rw [fieldAt_applyWrite_self, fieldAt_applyWrite_self, length_statics_eq hs, hsh]
      by_cases hin : w.itemIdx < y.length ∧ w.fieldIdx < shapeAt y w.itemIdx
      · rw [if_pos hin, if_pos hin]
      · rw [if_neg hin, if_neg hin]
        rw [fieldAt_oob, fieldAt_oob]
        · intro hc
          exact hin ⟨hc.1, hc.2⟩
        · intro hc
          refine hin ⟨?_, ?_⟩
          · rw [← length_statics_eq hs]
            exact hc.1
          · rw [← hsh]
            exact hc.2
    · rw [fieldAt_applyWrite_ne hit, fieldAt_applyWrite_ne hit]
      exact hf i fi hit

theorem applyWrites_idem (s : Batch) (ws : List Write) :
    applyWrites (applyWrites s ws) ws = applyWrites s ws := by
  induction ws using List.reverseRecOn with
  | nil => rfl
  | append_singleton ws w ih =>
    rw [applyWrites_append, applyWrites_append]
    rw [show applyWrites (applyWrites s ws) [w] = applyWrite (applyWrites s ws) w from rfl,
        show ∀ z : Batch, applyWrites z [w] = applyWrite z w from fun z => rfl]
    apply applyWrite_congr_offdiag
    · rw [statics_applyWrites, statics_applyWrite, statics_applyWrites]
    · intro i
      rw [shapeAt_applyWrites, shapeAt_applyWrite, shapeAt_applyWrites]
    · intro i fi hne
      have hstep : fieldAt (applyWrite (applyWrites s ws) w) i fi =
          fieldAt (applyWrites s ws) i fi := fieldAt_applyWrite_ne hne
      have hcongr := @fieldAt_applyWrites_congr ws
        (applyWrite (applyWrites s ws) w) (applyWrites s ws)
        (by rw [length_applyWrite]) (fun j => by rw [shapeAt_applyWrite])
        i fi hstep
      rw [hcongr, ih]

theorem getItemD_static_eq {st b : Batch} (h : statics st = statics b) (i : Nat) :
    (getItemD st i).isPtr = (getItemD b i).isPtr ∧ (getItemD st i).ty = (getItemD b i).ty := by
  have hlen : st.length = b.length := length_statics_eq h
  by_cases hi : i < st.length
  · have hib : i < b.length := hlen ▸ hi
    have h1s : i < (statics st).length := by simpa [statics] using hi
    have h2s : i < (statics b).length := by simpa [statics] using hib
    have hq : (statics st)[i]? = (statics b)[i]? := by rw [h]
    rw [List.getElem?_eq_getElem h1s, List.getElem?_eq_getElem h2s] at hq
    have hv := (Option.some.injEq _ _).mp hq
    simp only [statics, List.getElem_map] at hv
    unfold getItemD
    rw [List.getD_eq_getElem _ _ hi, List.getD_eq_getElem _ _ hib]
    exact ⟨congrArg Prod.fst hv, congrArg Prod.snd hv⟩
  · unfold getItemD
    rw [List.getD_eq_default _ _ (Nat.le_of_not_lt hi),
        List.getD_eq_default _ _ (by rw [← hlen]; exact Nat.le_of_not_lt hi)]
    exact ⟨rfl, rfl⟩


theorem refWrite_congr {b' b : Batch} (h : statics b' = statics b)
    (result : ResultMap) (idx : Nat) (r : FieldRef) :
    refWrite b' result idx r = refWrite b result idx r := by
  obtain ⟨hp, ht⟩ := getItemD_static_eq h r.itemIdx
  unfold refWrite refNameByIndex
  simp only [hp, ht]

theorem bindRef_eq_refWrite {st : Batch} {idx : Nat} {r : FieldRef} {result : ResultMap}
    (hfn : ¬(goStartsWith r.output "fn:" = true)) :
    bindRef st idx r result =
      match refWrite st result idx r with
      | .ok w => .ok (applyWrite st w)
      | .error e => .error e := by
  have hcond : (decide (r.output = "") || !(goStartsWith r.output "fn:")) = true := by
    cases hsw : goStartsWith r.output "fn:" with
    | false => simp
    | true => exact absurd hsw hfn
  unfold bindRef refWrite setField applyWrite
  rw [if_pos hcond]
  simp only []
  cases hfind : findFieldIdx (getItemD st r.itemIdx).ty
      (if r.output = "" then refNameByIndex (getItemD st r.itemIdx) r.fieldIdx
       else r.output) with
  | none => rfl
  | some fi =>
    cases hp : (getItemD st r.itemIdx).isPtr with
    | false => rfl
    | true =>
      cases ho : resolveOut result idx r.fieldVal with
      | none => rfl
      | some v =>
        by_cases hty : typeOf v = ((getItemD st r.itemIdx).ty.fields.getD fi default).ty
        · simp only [if_pos hty]
          rfl
        · simp only [if_neg hty]
          cases hcv : convert v ((getItemD st r.itemIdx).ty.fields.getD fi default).ty with
          | none => rfl
          | some v2 => rfl

theorem bindRef_statics {st st' : Batch} {idx : Nat} {r : FieldRef} {result : ResultMap}
    (h : bindRef st idx r result = .ok st') : statics st' = statics st := by
  unfold bindRef at h
  by_cases hcond : (decide (r.output = "") || !(goStartsWith r.output "fn:")) = true
  · rw [if_pos hcond] at h
    simp only [] at h
    cases hsf : setField (getItemD st r.itemIdx).isPtr (getItemD st r.itemIdx).ty
        (getItemD st r.itemIdx).fields
        (if r.output = "" then refNameByIndex (getItemD st r.itemIdx) r.fieldIdx
         else r.output) (resolveOut result idx r.fieldVal) with
    | error e => rw [hsf] at h; exact Except.noConfusion h
    | ok f =>
      rw [hsf] at h
      have := (Except.ok.injEq _ _).mp h
      rw [← this]
      exact statics_setItemFields _ _ _
  · rw [if_neg hcond] at h
    simp only [] at h
    cases hcf : callOutputFunc (getItemD st r.itemIdx).isPtr (getItemD st r.itemIdx).ty
        (getItemD st r.itemIdx).fields (r.output.drop 3)
        (resolveOut result idx r.fieldVal) with
    | error e => rw [hcf] at h; exact Except.noConfusion h
    | ok f =>
      rw [hcf] at h
      have := (Except.ok.injEq _ _).mp h
      rw [← this]
      exact statics_setItemFields _ _ _

theorem bindRefs_statics {result : ResultMap} : ∀ {refs : List FieldRef} {idx : Nat}
    {st : Batch}, statics (bindRefs st refs idx result).1 = statics st := by
  intro refs
  induction refs with
  | nil => intro idx st; rfl
  | cons r rest ih =>
    intro idx st
    cases hb : bindRef st idx r result with
    | error e => simp only [bindRefs, hb]
    | ok st' =>
      simp only [bindRefs, hb]
      rw [ih, bindRef_statics hb]

theorem runTask_statics (c : Combine) (st : Batch) (t : AggTask) :
    statics (runTask c st t).1 = statics st := by
  unfold runTask
  cases hl : lookupHandler c t.name with
  | none => rfl
  | some hh => exact bindRefs_statics

theorem bindRefs_ok {result : ResultMap} : ∀ {refs : List FieldRef} {idx : Nat}
    {st b : Batch} {ws : List Write},
    statics st = statics b →
    (∀ r ∈ refs, ¬(goStartsWith r.output "fn:" = true)) →
    refWrites b result refs idx = .ok ws →
    bindRefs st refs idx result = (applyWrites st ws, none) := by
  intro refs
  induction refs with
  | nil =>
    intro idx st b ws _ _ h
    simp only [refWrites] at h
    have := (Except.ok.injEq _ _).mp h
    rw [← this]
    rfl
  | cons r rest ih =>
    intro idx st b ws hst hfn h
    cases hw : refWrite b result idx r with
    | error e =>
      simp only [refWrites, hw] at h
      exact Except.noConfusion h
    | ok w =>
      cases hws : refWrites b result rest (idx + 1) with
      | error e =>
        simp only [refWrites, hw, hws] at h
        exact Except.noConfusion h
      | ok ws2 =>
        simp only [refWrites, hw, hws] at h
        have hbr : bindRef st idx r result = .ok (applyWrite st w) := by
          rw [bindRef_eq_refWrite (hfn r (by simp)), refWrite_congr hst, hw]
        simp only [bindRefs, hbr]
        have hst2 : statics (applyWrite st w) = statics b := by
          rw [statics_applyWrite, hst]
        rw [ih hst2 (fun r2 h2 => hfn r2 (List.mem_cons_of_mem _ h2)) hws]
        have hwseq : w :: ws2 = ws := (Except.ok.injEq _ _).mp h
        rw [← hwseq]
        rfl

theorem refWrites_ok_of_bindRefs {result : ResultMap} : ∀ {refs : List FieldRef}
    {idx : Nat} {st b : Batch},
    statics st = statics b →
    (∀ r ∈ refs, ¬(goStartsWith r.output "fn:" = true)) →
    (bindRefs st refs idx result).2 = none →
    ∃ ws, refWrites b result refs idx = .ok ws := by
  intro refs
  induction refs with
  | nil => intro idx st b _ _ _; exact ⟨[], rfl⟩
  | cons r rest ih =>
    intro idx st b hst hfn h
    cases hw : refWrite b result idx r with
    | error e =>
      have hbr : bindRef st idx r result = .error e := by
        rw [bindRef_eq_refWrite (hfn r (by simp)), refWrite_congr hst, hw]
      simp only [bindRefs, hbr] at h
      exact Option.noConfusion h
    | ok w =>
      have hbr : bindRef st idx r result = .ok (applyWrite st w) := by
        rw [bindRef_eq_refWrite (hfn r (by simp)), refWrite_congr hst, hw]
      simp only [bindRefs, hbr] at h
      have hst2 : statics (applyWrite st w) = statics b := by
        rw [statics_applyWrite, hst]
      obtain ⟨ws2, hws2⟩ := ih hst2 (fun r2 h2 => hfn r2 (List.mem_cons_of_mem _ h2)) h
      exact ⟨w :: ws2, by simp only [refWrites, hw, hws2]⟩

theorem taskWritesD_eq {c : Combine} {b : Batch} {t : AggTask} {ws : List Write}
    (h : taskWrites c b t = .ok ws) : taskWritesD c b t = ws := by
  unfold taskWritesD
  rw [h]

theorem runTask_writes {c : Combine} {st b : Batch} {t : AggTask} {ws : List Write}
    (hst : statics st = statics b)
    (hfn : ∀ r ∈ t.refs, ¬(goStartsWith r.output "fn:" = true))
    (h : taskWrites c b t = .ok ws) :
    runTask c st t = (applyWrites st ws, none, some (t.name, t.values, c.combineCtx)) := by
  unfold taskWrites at h
  unfold runTask
  cases hl : lookupHandler c t.name with
  | none => rw [hl] at h; exact Except.noConfusion h
  | some hh =>
    rw [hl] at h
    show ((bindRefs st t.refs 0 (hh t.values c.combineCtx)).1,
          (bindRefs st t.refs 0 (hh t.values c.combineCtx)).2,
          some (t.name, t.values, c.combineCtx)) = _
    rw [bindRefs_ok hst hfn h]

theorem taskWrites_ok_of_runTask {c : Combine} {st b : Batch} {t : AggTask}
    (hst : statics st = statics b)
    (hfn : ∀ r ∈ t.refs, ¬(goStartsWith r.output "fn:" = true))
    (h : (runTask c st t).2.1 = none) : ∃ ws, taskWrites c b t = .ok ws := by
  unfold runTask at h
  cases hl : lookupHandler c t.name with
  | none => rw [hl] at h; exact Option.noConfusion h
  | some hh =>
    rw [hl] at h
    have h2 : (bindRefs st t.refs 0 (hh t.values c.combineCtx)).2 = none := h
    obtain ⟨ws, hws⟩ := refWrites_ok_of_bindRefs hst hfn h2
    refine ⟨ws, ?_⟩
    unfold taskWrites
    rw [hl]
    exact hws

theorem seqRun_writes {c : Combine} {b : Batch} : ∀ {ts : List AggTask} {st : Batch},
    statics st = statics b →
    (∀ t ∈ ts, ∀ r ∈ t.refs, ¬(goStartsWith r.output "fn:" = true)) →
    (∀ t ∈ ts, (taskWrites c b t).isOk = true) →
    seqRun c ts st = (ts.foldl (applyTask c b) st, none,
      ts.map (fun t => (t.name, t.values, c.combineCtx))) := by
  intro ts
  induction ts with
  | nil => intro st _ _ _; rfl
  | cons t rest ih =>
    intro st hst hfn hok
    have hok0 := hok t (by simp)
    cases hw : taskWrites c b t with
    | error e => rw [hw] at hok0; exact Bool.noConfusion hok0
    | ok ws =>
      have hrt := runTask_writes hst (hfn t (by simp)) hw
      rw [seqRun]
      simp only [hrt]
      have hst2 : statics (applyWrites st ws) = statics b := by
        rw [statics_applyWrites, hst]
      rw [ih hst2 (fun t2 h2 => hfn t2 (List.mem_cons_of_mem _ h2))
        (fun t2 h2 => hok t2 (List.mem_cons_of_mem _ h2))]
      have hfold : List.foldl (applyTask c b) st (t :: rest) =
          List.foldl (applyTask c b) (applyWrites st ws) rest := by
        rw [List.foldl_cons]
        unfold applyTask
        rw [taskWritesD_eq hw]
      rw [hfold]
      rfl

theorem concRun_writes {c : Combine} {b : Batch} : ∀ {ts : List AggTask} {st : Batch},
    statics st = statics b →
    (∀ t ∈ ts, ∀ r ∈ t.refs, ¬(goStartsWith r.output "fn:" = true)) →
    (∀ t ∈ ts, (taskWrites c b t).isOk = true) →
    concRun c ts st = (ts.foldl (applyTask c b) st, none,
      ts.map (fun t => (t.name, t.values, c.combineCtx))) := by
  intro ts
  induction ts with
  | nil => intro st _ _ _; rfl
  | cons t rest ih =>
    intro st hst hfn hok
    have hok0 := hok t (by simp)
    cases hw : taskWrites c b t with
    | error e => rw [hw] at hok0; exact Bool.noConfusion hok0
    | ok ws =>
      have hrt := runTask_writes hst (hfn t (by simp)) hw
      rw [concRun]
      simp only [hrt]
      have hst2 : statics (applyWrites st ws) = statics b := by
        rw [statics_applyWrites, hst]
      rw [ih hst2 (fun t2 h2 => hfn t2 (List.mem_cons_of_mem _ h2))
        (fun t2 h2 => hok t2 (List.mem_cons_of_mem _ h2))]
      have hfold : List.foldl (applyTask c b) st (t :: rest) =
          List.foldl (applyTask c b) (applyWrites st ws) rest := by
        rw [List.foldl_cons]
        unfold applyTask
        rw [taskWritesD_eq hw]
      rw [hfold]
      rfl

theorem allOk_of_seqRun {c : Combine} {b : Batch} : ∀ {ts : List AggTask} {st : Batch},
    statics st = statics b →
    (∀ t ∈ ts, ∀ r ∈ t.refs, ¬(goStartsWith r.output "fn:" = true)) →
    (seqRun c ts st).2.1 = none →
    ∀ t ∈ ts, (taskWrites c b t).isOk = true := by
  intro ts
  induction ts with
  | nil => intro st _ _ _ t ht; simp at ht
  | cons t0 rest ih =>
    intro st hst hfn h
    cases he : (runTask c st t0).2.1 with
    | some e =>
      rw [seqRun] at h
      simp only [he] at h
      exact Option.noConfusion h
    | none =>
      rw [seqRun] at h
      simp only [he] at h
      have hst2 : statics (runTask c st t0).1 = statics b := by
        rw [runTask_statics, hst]
      intro t ht
      rcases List.mem_cons.mp ht with ht | ht
      · subst ht
        obtain ⟨ws, hws⟩ := taskWrites_ok_of_runTask hst (hfn t (by simp)) he
        rw [hws]
        rfl
      · exact ih hst2 (fun t2 h2 => hfn t2 (List.mem_cons_of_mem _ h2)) h t ht

theorem allOk_of_concRun {c : Combine} {b : Batch} : ∀ {ts : List AggTask} {st : Batch},
    statics st = statics b →
    (∀ t ∈ ts, ∀ r ∈ t.refs, ¬(goStartsWith r.output "fn:" = true)) →
    (concRun c ts st).2.1 = none →
    ∀ t ∈ ts, (taskWrites c b t).isOk = true := by
  intro ts
  induction ts with
  | nil => intro st _ _ _ t ht; simp at ht
  | cons t0 rest ih =>
    intro st hst hfn h
    cases he : (runTask c st t0).2.1 with
    | some e =>
      rw [concRun] at h
      simp only [he] at h
      exact Option.noConfusion h
    | none =>
      rw [concRun] at h
      simp only [he] at h
      have hst2 : statics (runTask c st t0).1 = statics b := by
        rw [runTask_statics, hst]
      intro t ht
      rcases List.mem_cons.mp ht with ht | ht
      · subst ht
        obtain ⟨ws, hws⟩ := taskWrites_ok_of_runTask hst (hfn t (by simp)) he
        rw [hws]
        rfl
      · exact ih hst2 (fun t2 h2 => hfn t2 (List.mem_cons_of_mem _ h2)) h t ht


theorem refsOf_of_mem {aggs : Aggs} (hnd : (keysOf aggs).Nodup)
    {p : String × List FieldRef} (hp : p ∈ aggs) : refsOf aggs p.1 = p.2 := by
  induction aggs with
  | nil => simp at hp
  | cons q rest ih =>
    simp only [keysOf, List.map_cons, List.nodup_cons] at hnd
    rcases List.mem_cons.mp hp with h | h
    · subst h
      simp [refsOf]
    · have hne : ¬ q.1 = p.1 := by
        intro he
        exact hnd.1 (he ▸ List.mem_map_of_mem Prod.fst h)
      simp only [refsOf, if_neg hne]
      exact ih hnd.2 h

theorem refsFromItems_origin {name : String} : ∀ {bs : Batch} {i0 : Nat} {r : FieldRef},
    r ∈ refsFromItems name bs i0 →
    ∃ j, j < bs.length ∧ ∃ d ∈ itemDirectives (bs.getD j default),
      r = refFromItem (i0 + j) d ∧ d.2.2.funcName = name := by
  intro bs
  induction bs with
  | nil => intro i0 r h; simp [refsFromItems] at h
  | cons it rest ih =>
    intro i0 r h
    simp only [refsFromItems, List.mem_append] at h
    rcases h with h | h
    · obtain ⟨d, hd, hdr⟩ := List.mem_filterMap.mp h
      by_cases hnm : d.2.2.funcName = name
      · rw [if_pos hnm] at hdr
        have hdr2 : r = refFromItem i0 d := (Option.some.injEq _ _).mp hdr |>.symm
        refine ⟨0, by simp, d, by simpa using hd, ?_, hnm⟩
        rw [hdr2]
        rfl
      · rw [if_neg hnm] at hdr
        exact Option.noConfusion hdr
    · obtain ⟨j, hj, d, hd, hr, hnm⟩ := ih h
      refine ⟨j + 1, by simpa using hj, d, by simpa [List.getD_cons_succ] using hd, ?_, hnm⟩
      rw [hr]
      rw [show (i0 + 1) + j = i0 + (j + 1) from by omega]

theorem specRefs_origin {b : Batch} {name : String} {r : FieldRef}
    (h : r ∈ specRefs b name) :
    r.itemIdx < b.length ∧ ∃ d ∈ itemDirectives (getItemD b r.itemIdx),
      r = refFromItem r.itemIdx d ∧ d.2.2.funcName = name := by
  obtain ⟨j, hj, d, hd, hr, hnm⟩ := refsFromItems_origin h
  have hij : r.itemIdx = j := by
    rw [hr]
    show 0 + j = j
    exact Nat.zero_add j
  constructor
  · rw [hij]
    exact hj
  · refine ⟨d, ?_, ?_, hnm⟩
    · rw [hij]
      exact hd
    · rw [hij, hr, Nat.zero_add]

theorem task_refs_spec {c : Combine} {b : Batch} {aggs : Aggs}
    (hcol : collect c b = .ok aggs) {t : AggTask} (ht : t ∈ buildTasks aggs) :
    t.refs = specRefs b t.name := by
  have hwf := collect_WF hcol
  obtain ⟨p, hp, hpt⟩ := List.mem_map.mp ht
  cases hpt
  show p.2 = specRefs b p.1
  rw [← collect_refsOf hcol, refsOf_of_mem hwf.1 hp]

theorem task_ref_props {c : Combine} {b : Batch} {aggs : Aggs}
    (hcol : collect c b = .ok aggs) {t : AggTask} (ht : t ∈ buildTasks aggs)
    {r : FieldRef} (hr : r ∈ t.refs) :
    r.itemIdx < b.length ∧
    ∃ d ∈ itemDirectives (getItemD b r.itemIdx),
      r = refFromItem r.itemIdx d ∧ d.2.2.funcName = t.name := by
  rw [task_refs_spec hcol ht] at hr
  exact specRefs_origin hr

theorem directive_mem_scan {b : Batch} {i : Nat} (hi : i < b.length)
    {d : Nat × Val × tagSpec} (hd : d ∈ itemDirectives (getItemD b i)) :
    d ∈ scanDirectives b := by
  unfold scanDirectives
  apply List.mem_flatten.mpr
  refine ⟨itemDirectives (getItemD b i), ?_, hd⟩
  apply List.mem_map_of_mem
  unfold getItemD
  rw [List.getD_eq_getElem _ _ hi]
  exact List.getElem_mem hi

theorem task_refs_noFn {c : Combine} {b : Batch} {aggs : Aggs}
    (hcol : collect c b = .ok aggs) (hfn : noFnOutputs b)
    {t : AggTask} (ht : t ∈ buildTasks aggs) {r : FieldRef} (hr : r ∈ t.refs) :
    ¬(goStartsWith r.output "fn:" = true) := by
  obtain ⟨hlt, d, hd, hrd, _⟩ := task_ref_props hcol ht hr
  have hout := hfn d (directive_mem_scan hlt hd)
  rw [hrd]
  exact hout

theorem runTask_inv_of_registered {c : Combine} {st : Batch} {t : AggTask}
    (hname : (lookupHandler c t.name).isSome) :
    (runTask c st t).2.2 = some (t.name, t.values, c.combineCtx) := by
  unfold runTask
  cases hl : lookupHandler c t.name with
  | none => rw [hl] at hname; exact absurd hname (by simp)
  | some hh => rfl

theorem seqRun_append_ok {c : Combine} : ∀ {ts1 ts2 : List AggTask} {st : Batch},
    (seqRun c ts1 st).2.1 = none →
    seqRun c (ts1 ++ ts2) st =
      ((seqRun c ts2 (seqRun c ts1 st).1).1,
       (seqRun c ts2 (seqRun c ts1 st).1).2.1,
       (seqRun c ts1 st).2.2 ++ (seqRun c ts2 (seqRun c ts1 st).1).2.2) := by
  intro ts1
  induction ts1 with
  | nil => intro ts2 st _; rfl
  | cons t rest ih =>
    intro ts2 st h
    cases he : (runTask c st t).2.1 with
    | some e =>
      rw [seqRun] at h
      simp only [he] at h
      exact Option.noConfusion h
    | none =>
      have hseq : seqRun c (t :: rest) st =
          ((seqRun c rest (runTask c st t).1).1,
           (seqRun c rest (runTask c st t).1).2.1,
           (runTask c st t).2.2.toList ++ (seqRun c rest (runTask c st t).1).2.2) := by
        rw [seqRun]
        simp only [he]
      have h2 : (seqRun c rest (runTask c st t).1).2.1 = none := by
        rw [hseq] at h
        exact h
      have hstep : seqRun c ((t :: rest) ++ ts2) st =
          ((seqRun c (rest ++ ts2) (runTask c st t).1).1,
           (seqRun c (rest ++ ts2) (runTask c st t).1).2.1,
           (runTask c st t).2.2.toList ++
             (seqRun c (rest ++ ts2) (runTask c st t).1).2.2) := by
        rw [List.cons_append, seqRun]
        simp only [he]
      rw [hstep, ih h2, hseq]
      simp [List.append_assoc]

/-- C4 (amended): in sequential (default) mode the per-function tasks run one
after another in the unspecified Go map iteration order; within one call, the
first task error aborts the loop immediately: the error is returned, the
handlers of all tasks after the failing one are never invoked and their
writes never happen — the final state, error and trace come from the prefix
up to and including the failing task only. -/
theorem c4_amended_first_error_aborts (c : Combine) (order : List Nat) (b : Batch)
    (aggs : Aggs) (ts1 : List AggTask) (t : AggTask) (ts2 : List AggTask) (e : String)
    (hc : c.concurrent = false)
    (hcol : collect c b = .ok aggs)
    (hsplit : orderTasks order (buildTasks aggs) = ts1 ++ t :: ts2)
    (hok1 : (seqRun c ts1 b).2.1 = none)
    (herr : (runTask c (seqRun c ts1 b).1 t).2.1 = some e) :
    processT c order b =
      ⟨(runTask c (seqRun c ts1 b).1 t).1, some e,
       (seqRun c ts1 b).2.2 ++ [(t.name, t.values, c.combineCtx)]⟩ := by
  have hb : b ≠ [] := by
    rintro rfl
    have haggs : aggs = [] := by
      have h0 : Except.ok ([] : Aggs) = Except.ok aggs := hcol
      injection h0 with h0e
      exact h0e.symm
    subst haggs
    rw [show buildTasks [] = [] from rfl, orderTasks_nil] at hsplit
    have hlen := congrArg List.length hsplit
    simp only [List.length_nil, List.length_append, List.length_cons] at hlen
    omega
  have hmem : t ∈ buildTasks aggs := by
    refine @mem_of_mem_orderTasks order _ _ ?_
    rw [hsplit]
    exact List.mem_append.mpr (Or.inr (by simp))
  have hreg := (buildTasks_mem_props (collect_WF hcol) hmem).1
  rw [processT_eq_seq hb hc hcol, hsplit]
  rw [seqRun_append_ok hok1]
  have hstep : seqRun c (t :: ts2) (seqRun c ts1 b).1 =
      ((runTask c (seqRun c ts1 b).1 t).1, some e,
       (runTask c (seqRun c ts1 b).1 t).2.2.toList) := by
    rw [seqRun]
    simp only [herr]
  rw [hstep, runTask_inv_of_registered hreg]
  rfl

/-- C4 (amended, witness): three tasks; the first succeeds, the second fails
binding to the missing field `Nope`, and the third is skipped: its handler
never appears in the trace. -/
theorem c4_amended_witness :
    processT threeFnC [0, 1, 2] threeFnB =
      ⟨(runTask threeFnC
          (seqRun threeFnC [⟨"f1", [⟨0, 0, .vInt 1, ""⟩], [.vInt 1]⟩] threeFnB).1
          ⟨"f2", [⟨0, 1, .vInt 2, "Nope"⟩], [.vInt 2]⟩).1,
       some "cannot set field Nope",
       (seqRun threeFnC [⟨"f1", [⟨0, 0, .vInt 1, ""⟩], [.vInt 1]⟩] threeFnB).2.2 ++
         [("f2", [Val.vInt 2], threeFnC.combineCtx)]⟩ :=
  c4_amended_first_error_aborts threeFnC [0, 1, 2] threeFnB
    [("f1", [⟨0, 0, .vInt 1, ""⟩]), ("f2", [⟨0, 1, .vInt 2, "Nope"⟩]),
     ("f3", [⟨0, 2, .vInt 3, ""⟩])]
    [⟨"f1", [⟨0, 0, .vInt 1, ""⟩], [.vInt 1]⟩]
    ⟨"f2", [⟨0, 1, .vInt 2, "Nope"⟩], [.vInt 2]⟩
    [⟨"f3", [⟨0, 2, .vInt 3, ""⟩], [.vInt 3]⟩]
    "cannot set field Nope"
    rfl (by decide) (by decide) (by decide) (by decide)


theorem findIdx_name_aux {name : String} : ∀ {fds : List FieldDecl} {j i : Nat},
    List.findIdx? (fun fd => fd.name == name) fds j = some i →
    j ≤ i ∧ i - j < fds.length ∧ (fds.getD (i - j) default).name = name := by
  intro fds
  induction fds with
  | nil => intro j i h; simp at h
  | cons fd rest ih =>
    intro j i h
    rw [List.findIdx?_cons] at h
    by_cases hp : (fd.name == name) = true
    · rw [if_pos hp] at h
      have hij : j = i := (Option.some.injEq _ _).mp h
      subst hij
      refine ⟨Nat.le_refl _, by simp, ?_⟩
      rw [Nat.sub_self]
      simpa using hp
    · rw [if_neg hp] at h
      obtain ⟨hle, hlt, hname⟩ := ih h
      have hji : j ≤ i := Nat.le_trans (Nat.le_succ j) hle
      refine ⟨hji, ?_, ?_⟩
      · simp only [List.length_cons]
        omega
      · have harith : i - j = (i - (j + 1)) + 1 := by omega
        rw [harith, List.getD_cons_succ]
        exact hname

theorem findFieldIdx_name {rt : RecordTy} {name : String} {fi : Nat}
    (h : findFieldIdx rt name = some fi) :
    fi < rt.fields.length ∧ (rt.fields.getD fi default).name = name := by
  unfold findFieldIdx at h
  obtain ⟨_, hlt, hname⟩ := findIdx_name_aux h
  rw [Nat.sub_zero] at hlt hname
  exact ⟨hlt, hname⟩

theorem refWrite_ok_target {b : Batch} {result : ResultMap} {idx : Nat} {r : FieldRef}
    {w : Write} (h : refWrite b result idx r = .ok w) :
    w.itemIdx = r.itemIdx ∧
    findFieldIdx (getItemD b r.itemIdx).ty
      (if r.output = "" then refNameByIndex (getItemD b r.itemIdx) r.fieldIdx else r.output)
      = some w.fieldIdx := by
  unfold refWrite at h
  simp only [] at h
  cases hfind : findFieldIdx (getItemD b r.itemIdx).ty
      (if r.output = "" then refNameByIndex (getItemD b r.itemIdx) r.fieldIdx
       else r.output) with
  | none =>
    simp only [hfind] at h
    exact Except.noConfusion h
  | some fi =>
    simp only [hfind] at h
    cases hp : (getItemD b r.itemIdx).isPtr with
    | false =>
      simp only [hp] at h
      exact Except.noConfusion h
    | true =>
      simp only [hp] at h
      cases ho : resolveOut result idx r.fieldVal with
      | none =>
        simp only [ho] at h
        have hw := (Except.ok.injEq _ _).mp h
        rw [← hw]
        exact ⟨rfl, rfl⟩
      | some v =>
        simp only [ho] at h
        by_cases hty : typeOf v = ((getItemD b r.itemIdx).ty.fields.getD fi default).ty
        · rw [if_pos hty] at h
          have hw := (Except.ok.injEq _ _).mp h
          rw [← hw]
          exact ⟨rfl, rfl⟩
        · rw [if_neg hty] at h
          cases hcv : convert v ((getItemD b r.itemIdx).ty.fields.getD fi default).ty with
          | none =>
            simp only [hcv] at h
            exact Except.noConfusion h
          | some v2 =>
            simp only [hcv] at h
            have hw := (Except.ok.injEq _ _).mp h
            rw [← hw]
            exact ⟨rfl, rfl⟩

theorem refWrites_mem {b : Batch} {result : ResultMap} : ∀ {refs : List FieldRef}
    {idx : Nat} {ws : List Write}, refWrites b result refs idx = .ok ws →
    ∀ w ∈ ws, ∃ r ∈ refs, ∃ i, refWrite b result i r = .ok w := by
  intro refs
  induction refs with
  | nil =>
    intro idx ws h w hw
    simp only [refWrites] at h
    have := (Except.ok.injEq _ _).mp h
    rw [← this] at hw
    simp at hw
  | cons r rest ih =>
    intro idx ws h w hw
    cases hr : refWrite b result idx r with
    | error e =>
      simp only [refWrites, hr] at h
      exact Except.noConfusion h
    | ok w0 =>
      cases hrest : refWrites b result rest (idx + 1) with
      | error e =>
        simp only [refWrites, hr, hrest] at h
        exact Except.noConfusion h
      | ok ws2 =>
        simp only [refWrites, hr, hrest] at h
        have hws : w0 :: ws2 = ws := (Except.ok.injEq _ _).mp h
        rw [← hws] at hw
        rcases List.mem_cons.mp hw with hw | hw
        · subst hw
          exact ⟨r, by simp, idx, hr⟩
        · obtain ⟨r2, hr2, i2, hw2⟩ := ih hrest w hw
          exact ⟨r2, List.mem_cons_of_mem _ hr2, i2, hw2⟩

theorem taskWrites_ok_of_isOk {c : Combine} {b : Batch} {t : AggTask}
    (h : (taskWrites c b t).isOk = true) :
    taskWrites c b t = .ok (taskWritesD c b t) := by
  unfold taskWritesD
  cases hw : taskWrites c b t with
  | error e => rw [hw] at h; exact Bool.noConfusion h
  | ok ws => rfl

theorem taskWrites_target {c : Combine} {b : Batch} {aggs : Aggs}
    (hcol : collect c b = .ok aggs) {t : AggTask} (ht : t ∈ buildTasks aggs)
    {ws : List Write} (hws : taskWrites c b t = .ok ws) {w : Write} (hw : w ∈ ws) :
    ((getItemD b w.itemIdx).ty.fields.getD w.fieldIdx default).name ∈
      itemTargets (getItemD b w.itemIdx) := by
  unfold taskWrites at hws
  cases hl : lookupHandler c t.name with
  | none => rw [hl] at hws; exact Except.noConfusion hws
  | some hh =>
    rw [hl] at hws
    obtain ⟨r, hr, i2, hwr⟩ := refWrites_mem hws w hw
    obtain ⟨hitem, hfind⟩ := refWrite_ok_target hwr
    obtain ⟨hlt, d, hd, hrd, _⟩ := task_ref_props hcol ht hr
    obtain ⟨hfl, hfname⟩ := findFieldIdx_name hfind
    rw [hitem]
    rw [hfname]
    have htn : (if r.output = "" then refNameByIndex (getItemD b r.itemIdx) r.fieldIdx
        else r.output) = directiveTarget (getItemD b r.itemIdx) d.1 d.2.2 := by
      rw [hrd]
      rfl
    rw [htn]
    unfold itemTargets
    exact List.mem_map_of_mem _ hd

theorem processT_ok_chars {c : Combine} {order : List Nat} {b : Batch} {aggs : Aggs}
    (hb : b ≠ []) (hcol : collect c b = .ok aggs) (hfn : noFnOutputs b)
    (hok : (processT c order b).err = none) :
    (∀ t ∈ orderTasks order (buildTasks aggs), (taskWrites c b t).isOk = true) ∧
    (processT c order b).state =
      (orderTasks order (buildTasks aggs)).foldl (applyTask c b) b := by
  have hfn2 : ∀ t ∈ orderTasks order (buildTasks aggs), ∀ r ∈ t.refs,
      ¬(goStartsWith r.output "fn:" = true) :=
    fun t ht r hr => task_refs_noFn hcol hfn (mem_of_mem_orderTasks ht) hr
  cases hc : c.concurrent with
  | true =>
    rw [processT_eq_conc hb hc hcol] at hok ⊢
    have hallOk := allOk_of_concRun (b := b) rfl hfn2 hok
    refine ⟨hallOk, ?_⟩
    rw [concRun_writes rfl hfn2 hallOk]
  | false =>
    rw [processT_eq_seq hb hc hcol] at hok ⊢
    have hallOk := allOk_of_seqRun (b := b) rfl hfn2 hok
    refine ⟨hallOk, ?_⟩
    rw [seqRun_writes rfl hfn2 hallOk]

theorem foldl_applyTask_eq {c : Combine} {b : Batch} : ∀ {ts : List AggTask} {st : Batch},
    ts.foldl (applyTask c b) st = applyWrites st ((ts.map (taskWritesD c b)).flatten) := by
  intro ts
  induction ts with
  | nil => intro st; rfl
  | cons t rest ih =>
    intro st
    rw [List.foldl_cons, List.map_cons, List.flatten_cons, applyWrites_append]
    exact ih

/-- C9: when `Process` succeeds and no directive routes its result through an
`fn:` callback, every struct field whose declared name is not the resolved
output target (explicit target, or the tagged field's own name when the
target is empty) of some directive of its own record keeps exactly the value
it had before the call. -/
theorem c9_frame_preservation (c : Combine) (order : List Nat) (b : Batch) (i fi : Nat)
    (hfn : noFnOutputs b)
    (hok : (processT c order b).err = none)
    (hname : ((getItemD b i).ty.fields.getD fi default).name ∉ itemTargets (getItemD b i)) :
    fieldAt (processT c order b).state i fi = fieldAt b i fi := by
  by_cases hb : b = []
  · subst hb
    rfl
  cases hcol : collect c b with
  | error e =>
    rw [processT, if_neg (fun hlen => hb (List.length_eq_zero.mp hlen))] at hok
    simp only [hcol] at hok
    exact Option.noConfusion hok
  | ok aggs =>
    obtain ⟨hallOk, hstate⟩ := processT_ok_chars hb hcol hfn hok
    rw [hstate, foldl_applyTask_eq]
    apply fieldAt_applyWrites_ne
    intro w hw hit
    obtain ⟨ws, hwsmem, hwmem⟩ := List.mem_flatten.mp hw
    obtain ⟨t, htmem, hts⟩ := List.mem_map.mp hwsmem
    rw [← hts] at hwmem
    have htask := taskWrites_ok_of_isOk (hallOk t htmem)
    have htarget := taskWrites_target hcol (mem_of_mem_orderTasks htmem) htask hwmem
    rw [hit.1, hit.2] at htarget
    exact hname htarget

/-- C9 (witness): on a record with a directed field `A` and an untagged
field `U`, a successful run leaves `U` exactly as it was. -/
theorem c9_witness :
    fieldAt (processT twoFnC [0] frameB).state 0 1 = fieldAt frameB 0 1 :=
  c9_frame_preservation twoFnC [0] frameB 0 1 (by decide) (by decide) (by decide)


theorem collectFields_flag (c : Combine) (x : Bool) (i : Nat) (flds : List Val) :
    ∀ (fds : List FieldDecl) (fi : Nat) (aggs : Aggs),
    collectFields { c with concurrent := x } i flds fds fi aggs =
      collectFields c i flds fds fi aggs := by
  intro fds
  induction fds with
  | nil => intro fi aggs; rfl
  | cons fd rest ih =>
    intro fi aggs
    simp only [collectFields]
    rw [show collectField { c with concurrent := x } i fi fd flds aggs =
      collectField c i fi fd flds aggs from rfl]
    cases collectField c i fi fd flds aggs with
    | error e => rfl
    | ok a => exact ih (fi + 1) a

theorem collectItems_flag (c : Combine) (x : Bool) :
    ∀ (bs : Batch) (i : Nat) (aggs : Aggs),
    collectItems { c with concurrent := x } bs i aggs = collectItems c bs i aggs := by
  intro bs
  induction bs with
  | nil => intro i aggs; rfl
  | cons it rest ih =>
    intro i aggs
    simp only [collectItems]
    rw [collectFields_flag]
    cases collectFields c i it.fields it.ty.fields 0 aggs with
    | error e => rfl
    | ok a => exact ih (i + 1) a

theorem collect_flag (c : Combine) (x : Bool) (b : Batch) :
    collect { c with concurrent := x } b = collect c b := by
  unfold collect
  exact collectItems_flag c x b 0 []

theorem seqRun_flag (c : Combine) (x : Bool) : ∀ (ts : List AggTask) (st : Batch),
    seqRun { c with concurrent := x } ts st = seqRun c ts st := by
  intro ts
  induction ts with
  | nil => intro st; rfl
  | cons t rest ih =>
    intro st
    simp only [seqRun]
    rw [show runTask { c with concurrent := x } st t = runTask c st t from rfl]
    cases (runTask c st t).2.1 with
    | some e => rfl
    | none => rw [ih]

theorem concRun_flag (c : Combine) (x : Bool) : ∀ (ts : List AggTask) (st : Batch),
    concRun { c with concurrent := x } ts st = concRun c ts st := by
  intro ts
  induction ts with
  | nil => intro st; rfl
  | cons t rest ih =>
    intro st
    simp only [concRun]
    rw [show runTask { c with concurrent := x } st t = runTask c st t from rfl]
    rw [ih]

/-- C6 (counterexample): disjoint tasks and side-effect-free handlers do not
make concurrent and sequential mode agree.  On `divergeB` the two directives
resolve to distinct targets (`Nope` and `B`) and both handlers are pure, but
the `f` task's write-back fails (`Nope` does not exist): sequential mode
(lines 256-260) aborts before the `g` task, leaving `B = 2`, while
concurrent mode (lines 238-253) runs every task to completion and `g` still
writes `B = 20`, so the final states differ. -/
theorem c6_cex_seq_abort_vs_conc_writes :
    noFnOutputs divergeB ∧
    List.Pairwise (fun s1 s2 => s1 ≠ s2)
      ((itemDirectives (getItemD divergeB 0)).map
        (fun d => directiveTarget (getItemD divergeB 0) d.1 d.2.2)) ∧
    validOrder twoFnC divergeB [0, 1] ∧
    (processT { twoFnC with concurrent := true } [0, 1] divergeB).state =
      [⟨true, divergeTy, [.vInt 1, .vInt 20]⟩] ∧
    (processT { twoFnC with concurrent := false } [0, 1] divergeB).state =
      [⟨true, divergeTy, [.vInt 1, .vInt 2]⟩] ∧
    (processT { twoFnC with concurrent := true } [0, 1] divergeB).state ≠
      (processT { twoFnC with concurrent := false } [0, 1] divergeB).state := by
  refine ⟨by decide, by decide, by decide, rfl, rfl, ?_⟩
  intro h
  have hf : fieldAt (processT { twoFnC with concurrent := true } [0, 1] divergeB).state 0 1 =
      fieldAt (processT { twoFnC with concurrent := false } [0, 1] divergeB).state 0 1 :=
    congrArg (fun st => fieldAt st 0 1) h
  exact absurd hf (by decide)

/-- C6: when the per-function tasks write pairwise-disjoint record fields
(no `fn:` callbacks, every write-back succeeds), running the engine in
concurrent mode produces exactly the final record state of running it in
sequential mode, under any two task iteration orders, and both runs
succeed. -/
theorem c6_concurrent_eq_sequential (c : Combine) (order order2 : List Nat)
    (b : Batch) (aggs : Aggs)
    (hcol : collect c b = .ok aggs)
    (hfn : noFnOutputs b)
    (hord : order.Perm (List.range aggs.length))
    (hord2 : order2.Perm (List.range aggs.length))
    (hsucc : ∀ t ∈ buildTasks aggs, (taskWrites c b t).isOk = true)
    (hdisj : List.Pairwise (fun t1 t2 => ∀ w1 ∈ taskWritesD c b t1,
        ∀ w2 ∈ taskWritesD c b t2,
        w1.itemIdx ≠ w2.itemIdx ∨ w1.fieldIdx ≠ w2.fieldIdx) (buildTasks aggs)) :
    (processT { c with concurrent := true } order b).state =
      (processT { c with concurrent := false } order2 b).state ∧
    (processT { c with concurrent := true } order b).err = none ∧
    (processT { c with concurrent := false } order2 b).err = none := by
  by_cases hb : b = []
  · subst hb
    exact ⟨rfl, rfl, rfl⟩
  · have hcol1 : collect { c with concurrent := true } b = .ok aggs := by
      rw [collect_flag]
      exact hcol
    have hcol2 : collect { c with concurrent := false } b = .ok aggs := by
      rw [collect_flag]
      exact hcol
    have hfn2 : ∀ t ∈ orderTasks order (buildTasks aggs), ∀ r ∈ t.refs,
        ¬(goStartsWith r.output "fn:" = true) :=
      fun t ht r hr => task_refs_noFn hcol hfn (mem_of_mem_orderTasks ht) hr
    have hfn3 : ∀ t ∈ orderTasks order2 (buildTasks aggs), ∀ r ∈ t.refs,
        ¬(goStartsWith r.output "fn:" = true) :=
      fun t ht r hr => task_refs_noFn hcol hfn (mem_of_mem_orderTasks ht) hr
    have hsucc2 : ∀ t ∈ orderTasks order (buildTasks aggs),
        (taskWrites c b t).isOk = true :=
      fun t ht => hsucc t (mem_of_mem_orderTasks ht)
    have hsucc3 : ∀ t ∈ orderTasks order2 (buildTasks aggs),
        (taskWrites c b t).isOk = true :=
      fun t ht => hsucc t (mem_of_mem_orderTasks ht)
    rw [processT_eq_conc hb rfl hcol1, processT_eq_seq hb rfl hcol2]
    rw [concRun_flag, seqRun_flag]
    rw [concRun_writes rfl hfn2 hsucc2, seqRun_writes rfl hfn3 hsucc3]
    refine ⟨?_, rfl, rfl⟩
    have hp1 : (orderTasks order (buildTasks aggs)).Perm (buildTasks aggs) := by
      apply orderTasks_perm
      rw [buildTasks_length]
      exact hord
    have hp2 : (orderTasks order2 (buildTasks aggs)).Perm (buildTasks aggs) := by
      apply orderTasks_perm
      rw [buildTasks_length]
      exact hord2
    have hperm := hp1.trans hp2.symm
    have hsym : Symmetric (fun t1 t2 : AggTask => ∀ w1 ∈ taskWritesD c b t1,
        ∀ w2 ∈ taskWritesD c b t2,
        w1.itemIdx ≠ w2.itemIdx ∨ w1.fieldIdx ≠ w2.fieldIdx) := by
      intro t1 t2 h12 w2 hw2 w1 hw1
      rcases h12 w1 hw1 w2 hw2 with h | h
      · exact Or.inl (Ne.symm h)
      · exact Or.inr (Ne.symm h)
    have hcomm : ∀ x ∈ orderTasks order (buildTasks aggs),
        ∀ y ∈ orderTasks order (buildTasks aggs), ∀ z : Batch,
        applyTask c b (applyTask c b z x) y = applyTask c b (applyTask c b z y) x := by
      intro x hx y hy z
      by_cases hxy : x = y
      · rw [hxy]
      · have hdj := List.Pairwise.forall hsym hdisj
          (mem_of_mem_orderTasks hx) (mem_of_mem_orderTasks hy) hxy
        unfold applyTask
        exact applyWrites_comm hdj
    exact hperm.foldl_eq' hcomm b

/-- C6 (witness): the two tasks of the two-directive batch write disjoint
fields `A` and `B`; concurrent dispatch in order `[1, 0]` and sequential
dispatch in order `[0, 1]` reach the same final state, both successfully. -/
theorem c6_witness :
    (processT { twoFnC with concurrent := true } [1, 0] twoFnB).state =
      (processT { twoFnC with concurrent := false } [0, 1] twoFnB).state ∧
    (processT { twoFnC with concurrent := true } [1, 0] twoFnB).err = none ∧
    (processT { twoFnC with concurrent := false } [0, 1] twoFnB).err = none :=
  c6_concurrent_eq_sequential twoFnC [1, 0] [0, 1] twoFnB
    [("f", [⟨0, 0, .vInt 1, "A"⟩]), ("g", [⟨0, 1, .vInt 2, "B"⟩])]
    (by decide) (by decide) (by decide) (by decide) (by decide) (by decide)


theorem fieldDirectives_congr {flds flds' : List Val} (hlen : flds'.length = flds.length) :
    ∀ {fds : List FieldDecl} {fi : Nat},
    (∀ d ∈ fieldDirectives flds fds fi,
      flds'.getD d.1 (.vInt 0) = flds.getD d.1 (.vInt 0)) →
    fieldDirectives flds' fds fi = fieldDirectives flds fds fi := by
  intro fds
  induction fds with
  | nil => intro fi _; rfl
  | cons fd rest ih =>
    intro fi hv
    cases hp : parseTag fd.tag with
    | none =>
      simp only [fieldDirectives, hp]
      exact ih (fun d hd => hv d (by simp only [fieldDirectives, hp]; exact hd))
    | some sp =>
      simp only [fieldDirectives, hp]
      have hhead : flds'.getD fi (zeroOf fd.ty) = flds.getD fi (zeroOf fd.ty) := by
        by_cases hr : fi < flds.length
        · have hr2 : fi < flds'.length := by rw [hlen]; exact hr
          have h0 := hv (fi, flds.getD fi (zeroOf fd.ty), sp)
            (by simp only [fieldDirectives, hp]; exact List.mem_cons_self _ _)
          have h1 : flds'.getD fi (.vInt 0) = flds.getD fi (.vInt 0) := h0
          rw [List.getD_eq_getElem _ _ hr, List.getD_eq_getElem _ _ hr2]
          rw [List.getD_eq_getElem _ _ hr, List.getD_eq_getElem _ _ hr2] at h1
          exact h1
        · rw [List.getD_eq_default _ _ (Nat.le_of_not_lt hr),
              List.getD_eq_default _ _ (by rw [hlen]; exact Nat.le_of_not_lt hr)]
      rw [hhead]
      rw [ih (fun d hd => hv d
        (by simp only [fieldDirectives, hp]; exact List.mem_cons_of_mem _ hd))]

theorem collectFields_congr_vals {c : Combine} {i : Nat} {flds flds' : List Val} :
    ∀ {fds : List FieldDecl} {fi : Nat} {aggs : Aggs},
    fieldDirectives flds' fds fi = fieldDirectives flds fds fi →
    collectFields c i flds' fds fi aggs = collectFields c i flds fds fi aggs := by
  intro fds
  induction fds with
  | nil => intro fi aggs _; rfl
  | cons fd rest ih =>
    intro fi aggs hdir
    cases hp : parseTag fd.tag with
    | none =>
      simp only [fieldDirectives, hp] at hdir
      simp only [collectFields, collectField, hp]
      exact ih hdir
    | some sp =>
      simp only [fieldDirectives, hp, List.cons.injEq] at hdir
      obtain ⟨hhead, htail⟩ := hdir
      have hval : flds'.getD fi (zeroOf fd.ty) = flds.getD fi (zeroOf fd.ty) := by
        have := congrArg (fun d : Nat × Val × tagSpec => d.2.1) hhead
        simpa using this
      simp only [collectFields, collectField, hp, hval]
      cases lookupHandler c sp.funcName with
      | none => rfl
      | some hh => exact ih htail

theorem collectItems_congr_vals {c : Combine} : ∀ {bs bs' : Batch} {i : Nat} {aggs : Aggs},
    statics bs' = statics bs →
    (∀ j, (getItemD bs' j).fields.length = (getItemD bs j).fields.length) →
    (∀ j, ∀ d ∈ itemDirectives (getItemD bs j),
      (getItemD bs' j).fields.getD d.1 (.vInt 0) = (getItemD bs j).fields.getD d.1 (.vInt 0)) →
    collectItems c bs' i aggs = collectItems c bs i aggs := by
  intro bs
  induction bs with
  | nil =>
    intro bs' i aggs hs _ _
    cases bs' with
    | nil => rfl
    | cons x xs => simp [statics] at hs
  | cons it rest ih =>
    intro bs' i aggs hs hshape hvals
    cases bs' with
    | nil => simp [statics] at hs
    | cons it' rest' =>
      simp only [statics, List.map_cons, List.cons.injEq] at hs
      obtain ⟨hhead, htail⟩ := hs
      have hty : it'.ty = it.ty := congrArg Prod.snd hhead
      have hlen0 : it'.fields.length = it.fields.length := hshape 0
      have hdir : fieldDirectives it'.fields it.ty.fields 0 =
          fieldDirectives it.fields it.ty.fields 0 := by
        apply fieldDirectives_congr hlen0
        intro d hd
        exact hvals 0 d hd
      simp only [collectItems]
      have hcf : collectFields c i it'.fields it'.ty.fields 0 aggs =
          collectFields c i it.fields it.ty.fields 0 aggs := by
        rw [hty]
        exact collectFields_congr_vals hdir
      rw [hcf]
      cases collectFields c i it.fields it.ty.fields 0 aggs with
      | error e => rfl
      | ok a =>
        apply ih htail
        · intro j
          exact hshape (j + 1)
        · intro j d hd
          exact hvals (j + 1) d hd

theorem collect_congr_vals {c : Combine} {b b' : Batch}
    (hs : statics b' = statics b)
    (hshape : ∀ j, (getItemD b' j).fields.length = (getItemD b j).fields.length)
    (hvals : ∀ j, ∀ d ∈ itemDirectives (getItemD b j),
      (getItemD b' j).fields.getD d.1 (.vInt 0) = (getItemD b j).fields.getD d.1 (.vInt 0)) :
    collect c b' = collect c b := by
  unfold collect
  exact collectItems_congr_vals hs hshape hvals

theorem refWrites_congr {b' b : Batch} (h : statics b' = statics b) (result : ResultMap) :
    ∀ (refs : List FieldRef) (idx : Nat),
    refWrites b' result refs idx = refWrites b result refs idx := by
  intro refs
  induction refs with
  | nil => intro idx; rfl
  | cons r rest ih =>
    intro idx
    simp only [refWrites]
    rw [refWrite_congr h, ih]

theorem taskWrites_congr {c : Combine} {b' b : Batch} (h : statics b' = statics b)
    (t : AggTask) : taskWrites c b' t = taskWrites c b t := by
  unfold taskWrites
  cases lookupHandler c t.name with
  | none => rfl
  | some hh => exact refWrites_congr h _ _ _


/-- C7 (amended): running `Process` twice in succession is a fixed point —
the second run reproduces the state of the first — provided handlers are
deterministic (inherent in the model), the task iteration order is fixed, no
directive routes through an `fn:` callback, and no collected (tagged) source
field of a record is also some directive's resolved write-back target on
that record; the second run also succeeds.  Without the source/target
separation the property fails (see the counterexample). -/
theorem c7_amended_second_run_fixed_point (c : Combine) (order : List Nat) (b : Batch)
    (hfn : noFnOutputs b)
    (hdisj : ∀ it ∈ b, ∀ s ∈ itemSources it, s ∉ itemTargets it)
    (hok : (processT c order b).err = none) :
    (processT c order ((processT c order b).state)).state = (processT c order b).state ∧
    (processT c order ((processT c order b).state)).err = none := by
  by_cases hb : b = []
  · subst hb
    exact ⟨rfl, rfl⟩
  cases hcol : collect c b with
  | error e =>
    rw [processT, if_neg (fun hlen => hb (List.length_eq_zero.mp hlen))] at hok
    simp only [hcol] at hok
    exact Option.noConfusion hok
  | ok aggs =>
    obtain ⟨hallOk, hstate⟩ := processT_ok_chars hb hcol hfn hok
    have hW : (processT c order b).state = applyWrites b
        (((orderTasks order (buildTasks aggs)).map (taskWritesD c b)).flatten) := by
      rw [hstate, foldl_applyTask_eq]
    have hstat : statics (processT c order b).state = statics b := by
      rw [hW]
      exact statics_applyWrites _ _
    have hshape : ∀ j, shapeAt (processT c order b).state j = shapeAt b j := by
      intro j
      rw [hW]
      exact shapeAt_applyWrites _ _ _
    have hdisj2 : ∀ i : Nat, ∀ s ∈ itemSources (getItemD b i),
        s ∉ itemTargets (getItemD b i) := by
      intro i s hs
      by_cases hi : i < b.length
      · have hmem : getItemD b i ∈ b := by
          unfold getItemD
          rw [List.getD_eq_getElem _ _ hi]
          exact List.getElem_mem hi
        exact hdisj _ hmem s hs
      · unfold getItemD at hs
        rw [List.getD_eq_default _ _ (Nat.le_of_not_lt hi)] at hs
        simp [itemSources, itemDirectives, fieldDirectives] at hs
    have hpres : ∀ j, ∀ d ∈ itemDirectives (getItemD b j),
        fieldAt (processT c order b).state j d.1 = fieldAt b j d.1 := by
      intro j d hd
      rw [hW]
      apply fieldAt_applyWrites_ne
      intro w hw hit
      obtain ⟨ws, hwsmem, hwmem⟩ := List.mem_flatten.mp hw
      obtain ⟨t, htmem, htseq⟩ := List.mem_map.mp hwsmem
      rw [← htseq] at hwmem
      have htask := taskWrites_ok_of_isOk (hallOk t htmem)
      have htarget := taskWrites_target hcol (mem_of_mem_orderTasks htmem) htask hwmem
      rw [hit.1, hit.2] at htarget
      have hsource : ((getItemD b j).ty.fields.getD d.1 default).name ∈
          itemSources (getItemD b j) := by
        unfold itemSources
        exact List.mem_map_of_mem _ hd
      exact hdisj2 j _ hsource htarget
    have hcol2 : collect c (processT c order b).state = .ok aggs := by
      rw [collect_congr_vals hstat (fun j => hshape j) (fun j d hd => hpres j d hd), hcol]
    have hb2 : (processT c order b).state ≠ [] := by
      intro hnil
      have hlen := length_statics_eq hstat
      rw [hnil] at hlen
      apply hb
      apply List.length_eq_zero.mp
      rw [← hlen]
      rfl
    have hfn2 : ∀ t ∈ orderTasks order (buildTasks aggs), ∀ r ∈ t.refs,
        ¬(goStartsWith r.output "fn:" = true) :=
      fun t ht r hr => task_refs_noFn hcol hfn (mem_of_mem_orderTasks ht) hr
    have hallOk2 : ∀ t ∈ orderTasks order (buildTasks aggs),
        (taskWrites c b t).isOk = true := hallOk
    cases hc : c.concurrent with
    | true =>
      rw [processT_eq_conc hb2 hc hcol2]
      rw [concRun_writes hstat hfn2 hallOk2]
      refine ⟨?_, rfl⟩
      show List.foldl (applyTask c b) (processT c order b).state
        (orderTasks order (buildTasks aggs)) = (processT c order b).state
      rw [foldl_applyTask_eq, hW]
      exact applyWrites_idem b _
    | false =>
      rw [processT_eq_seq hb2 hc hcol2]
      rw [seqRun_writes hstat hfn2 hallOk2]
      refine ⟨?_, rfl⟩
      show List.foldl (applyTask c b) (processT c order b).state
        (orderTasks order (buildTasks aggs)) = (processT c order b).state
      rw [foldl_applyTask_eq, hW]
      exact applyWrites_idem b _

/-- C7 (amended, witness): a directive reading field `A` and writing the
separate field `OutA` is a fixed point after one run: the second run leaves
the state of the first unchanged and succeeds. -/
theorem c7_amended_witness :
    (processT twoFnC [0] ((processT twoFnC [0] crossB).state)).state =
      (processT twoFnC [0] crossB).state ∧
    (processT twoFnC [0] ((processT twoFnC [0] crossB).state)).err = none :=
  c7_amended_second_run_fixed_point twoFnC [0] crossB (by decide) (by decide) (by decide)

end CombineGo
